import Mathlib

/-
Verification of the alru_cache LRU memoization cache (src/alru_cache.py).

The development shallowly embeds `_lru_cache_wrapper` and its three wrapper
variants (maxsize = 0, maxsize = None, bounded maxsize), together with the
key builder `functools._make_key` that the module imports and aliases as
`make_key` (src/alru_cache.py line 63).

Modelling choices, each justified by the source:
  * Argument values are modelled by `PyVal`: a runtime type tag (int or
    float, the two types the specification's properties exercise) plus an
    integer magnitude.  Python `==` on such numbers compares magnitudes
    across the int/float divide (1 == 1.0), which `pyEq` captures.
  * `make_key` follows `functools._make_key` for positional-argument calls
    (the claims never pass keyword arguments): with `typed` the key is the
    argument tuple extended with the tuple of runtime types; without
    `typed`, a single argument whose type is in `fasttypes` (int is, float
    is not) is returned bare, otherwise the key is the `_HashedSeq` of the
    argument tuple.
  * The cache dict is an association list; `dictGet`, `dictSet`, `dictDel`
    compare keys with `keyEq`, the embedding of Python `==` on key objects.
  * The circular doubly linked list is a heap `nodes : Nat -> Node`
    addressed by node ids, with an allocation counter `nextId`; each Python
    link list `[PREV, NEXT, KEY, RESULT]` is one `Node`.  Every pointer
    write of the source is one sequential heap update, in source order, so
    aliasing behaves exactly as in Python.
  * An async computation that may fail is an `Except` value supplied per
    call; the call outcome records whether the underlying computation was
    awaited (miss outcomes) or skipped (hit outcomes).
-/

namespace AlruCache

/-- Runtime type tag of an argument value. -/
inductive PyType where
  | int : PyType
  | float : PyType
deriving DecidableEq

/-- An argument value: a runtime type and an integer magnitude (the
properties under scrutiny only involve integers and integral floats such
as 1.0). -/
structure PyVal where
  ty : PyType
  val : Int
deriving DecidableEq

/-- Integer argument value. -/
def pyInt (n : Int) : PyVal := { ty := PyType.int, val := n }

/-- Float argument value with integral magnitude (for example 1.0). -/
def pyFloat (n : Int) : PyVal := { ty := PyType.float, val := n }

/-- Python equality on numeric argument values: magnitudes compare across
int and float (1 == 1.0 is True). -/
def pyEq (a b : PyVal) : Bool := a.val == b.val

/-- Pointwise Python equality of two argument tuples (list `==` compares
lengths and elements). -/
def pyListEq : List PyVal → List PyVal → Bool
  | [], [] => true
  | a :: as, b :: bs => pyEq a b && pyListEq as bs
  | _, _ => false

/-- A cache key as produced by `functools._make_key`: either a bare
argument (the single-int fast path) or a `_HashedSeq` of the flat key
tuple, which with `typed` additionally carries the runtime types. -/
inductive CacheKey where
  | fast (v : PyVal)
  | seq (vals : List PyVal) (tys : List PyType)
deriving DecidableEq

/-- Python equality on cache key objects: a bare int never equals a
`_HashedSeq` list; sequences compare pointwise with Python `==` on the
values and identity on the type objects. -/
def keyEq : CacheKey → CacheKey → Bool
  | CacheKey.fast a, CacheKey.fast b => pyEq a b
  | CacheKey.seq as ts, CacheKey.seq bs us => pyListEq as bs && ts == us
  | _, _ => false

/-- Embedding of `functools._make_key(args, {}, typed)` for positional
arguments: with `typed`, the key tuple is the arguments followed by their
runtime types; otherwise a sole argument of a fast type (int here; float
is not in `fasttypes`) is returned bare, else the argument tuple is
wrapped. -/
def make_key (args : List PyVal) (typed : Bool) : CacheKey :=
  if typed then
    CacheKey.seq args (args.map PyVal.ty)
  else
    match args with
    | [v] => if v.ty = PyType.int then CacheKey.fast v else CacheKey.seq [v] []
    | _ => CacheKey.seq args []

/-- Dictionary lookup `cache.get(key)`: first entry whose stored key is
Python-equal to the probe. -/
def dictGet {β : Type} : List (CacheKey × β) → CacheKey → Option β
  | [], _ => none
  | (k', v) :: rest, k => if keyEq k' k then some v else dictGet rest k

/-- Dictionary deletion `del cache[key]`: removes the entry whose stored
key is Python-equal to the probe (a no-op when absent; the source only
deletes keys that are present). -/
def dictDel {β : Type} : List (CacheKey × β) → CacheKey → List (CacheKey × β)
  | [], _ => []
  | (k', v) :: rest, k => if keyEq k' k then rest else (k', v) :: dictDel rest k

/-- Dictionary assignment `cache[key] = v`: overwrites the value of an
existing Python-equal key (keeping the stored key object, as CPython
does) or appends a new entry. -/
def dictSet {β : Type} : List (CacheKey × β) → CacheKey → β → List (CacheKey × β)
  | [], k, v => [(k, v)]
  | (k', v') :: rest, k, v =>
      if keyEq k' k then (k', v) :: rest else (k', v') :: dictSet rest k v

/-- Snapshot returned by `cache_info()`, mirroring `_CacheInfo(hits,
misses, maxsize, currsize)`; `maxsize` is `none` for an unbounded cache. -/
structure CacheInfo where
  hits : Nat
  misses : Nat
  maxsize : Option Nat
  currsize : Nat
deriving DecidableEq

/-- State shared by the maxsize=0 and maxsize=None wrappers: those two
branches never touch the linked list, so only the dict (mapping keys
directly to results) and the counters are observable. -/
structure SimpleSt (α : Type) where
  cache : List (CacheKey × α)
  hits : Nat
  misses : Nat
deriving DecidableEq

/-- Fresh state for the simple (maxsize=0 or maxsize=None) wrappers. -/
def simpleInit (α : Type) : SimpleSt α :=
  { cache := [], hits := 0, misses := 0 }

/-- Observable outcome of one call of a simple wrapper: a cache hit
returns the stored result without awaiting the computation; on a miss the
computation is awaited and either returns or raises. -/
inductive SimpleOutcome (ε α : Type) where
  | hit (r : α)
  | missOk (r : α)
  | missFail (e : ε)
deriving DecidableEq

/-- Wrapper for maxsize=0 (src lines 77-82): increment the miss counter,
await the computation, and return its result; nothing is consulted or
stored. -/
def MaxsizeZero.wrapper {ε α : Type} (comp : Except ε α) (s : SimpleSt α) :
    SimpleOutcome ε α × SimpleSt α :=
  let s1 := { s with misses := s.misses + 1 }
  match comp with
  | Except.ok r => (SimpleOutcome.missOk r, s1)
  | Except.error e => (SimpleOutcome.missFail e, s1)

/-- Runs a sequence of maxsize=0 calls; the n-th element of `comps` is
what the underlying computation does when awaited by the n-th call. -/
def MaxsizeZero.run {ε α : Type} :
    List (Except ε α) → SimpleSt α → List (SimpleOutcome ε α) × SimpleSt α
  | [], s => ([], s)
  | comp :: rest, s =>
      let p := MaxsizeZero.wrapper comp s
      let q := MaxsizeZero.run rest p.2
      (p.1 :: q.1, q.2)

/-- Wrapper for maxsize=None (src lines 86-97): plain memoization into the
dict with no ordering and no size limit. -/
def Unbounded.wrapper {ε α : Type} (typed : Bool) (comp : Except ε α)
    (s : SimpleSt α) (args : List PyVal) : SimpleOutcome ε α × SimpleSt α :=
  let key := make_key args typed
  match dictGet s.cache key with
  | some result => (SimpleOutcome.hit result, { s with hits := s.hits + 1 })
  | none =>
      let s1 := { s with misses := s.misses + 1 }
      match comp with
      | Except.error e => (SimpleOutcome.missFail e, s1)
      | Except.ok result =>
          (SimpleOutcome.missOk result, { s1 with cache := dictSet s1.cache key result })

/-- Runs a sequence of maxsize=None calls, each given its positional
arguments and what its awaited computation would produce. -/
def Unbounded.run {ε α : Type} (typed : Bool) :
    List (List PyVal × Except ε α) → SimpleSt α → List (SimpleOutcome ε α) × SimpleSt α
  | [], s => ([], s)
  | (args, comp) :: rest, s =>
      let p := Unbounded.wrapper typed comp s args
      let q := Unbounded.run typed rest p.2
      (p.1 :: q.1, q.2)

/-- Statistics of a simple-mode cache, as reported by `cache_info()`. -/
def Simple.cache_info {α : Type} (maxsize : Option Nat) (s : SimpleSt α) : CacheInfo :=
  { hits := s.hits, misses := s.misses, maxsize := maxsize, currsize := s.cache.length }

/-- Clearing a simple-mode cache (src lines 162-169 restricted to the
state those wrappers use): empty the dict and zero both counters. -/
def Simple.cache_clear {α : Type} (s : SimpleSt α) : SimpleSt α :=
  { s with cache := [], hits := 0, misses := 0 }

/-- One Python link list `[PREV, NEXT, KEY, RESULT]` of the circular
doubly linked recency list.  The root sentinel holds `none` in its key and
result slots. -/
structure Node (α : Type) where
  prev : Nat
  next : Nat
  key : Option CacheKey
  result : Option α

/-- State owned by the bounded wrapper: the node heap with its allocation
counter, the id of the root sentinel, the dict mapping keys to link ids,
the two counters, and the full flag. -/
structure BoundedSt (α : Type) where
  nodes : Nat → Node α
  nextId : Nat
  rootId : Nat
  cache : List (CacheKey × Nat)
  hits : Nat
  misses : Nat
  full : Bool

/-- Heap update: the node at id `i` becomes `n`; all other ids are
unchanged. -/
def updNode {α : Type} (f : Nat → Node α) (i : Nat) (n : Node α) : Nat → Node α :=
  fun j => if j = i then n else f j

/-- Fresh bounded-mode state (src lines 66-73): empty dict, zero counters,
not full, and a root sentinel pointing at itself. -/
def boundedInit (α : Type) : BoundedSt α :=
  { nodes := fun _ => { prev := 0, next := 0, key := none, result := none }
  , nextId := 1
  , rootId := 0
  , cache := []
  , hits := 0
  , misses := 0
  , full := false }

/-- Result of the first critical section of a bounded call: either a hit
carrying the RESULT slot of the promoted link, or a miss. -/
inductive LookupRes (α : Type) where
  | hit (result : Option α)
  | miss

/-- First `with lock` block of the bounded wrapper (src lines 105-118):
look the key up; on a hit, splice the link out of the ring and relink it
as most recently used (immediately before the root), bump the hit counter
and return the stored result; on a miss just bump the miss counter.  Each
pointer write is performed in source order on the current heap. -/
def Bounded.wrapperLookup {α : Type} (s : BoundedSt α) (key : CacheKey) :
    LookupRes α × BoundedSt α :=
  match dictGet s.cache key with
  | some linkId =>
      let link := s.nodes linkId
      let link_prev := link.prev
      let link_next := link.next
      let result := link.result
      let n1 := updNode s.nodes link_prev { s.nodes link_prev with next := link_next }
      let n2 := updNode n1 link_next { n1 link_next with prev := link_prev }
      let last := (n2 s.rootId).prev
      let n3 := updNode n2 last { n2 last with next := linkId }
      let n4 := updNode n3 s.rootId { n3 s.rootId with prev := linkId }
      let n5 := updNode n4 linkId { n4 linkId with prev := last, next := s.rootId }
      (LookupRes.hit result, { s with nodes := n5, hits := s.hits + 1 })
  | none => (LookupRes.miss, { s with misses := s.misses + 1 })

/-- Second `with lock` block of the bounded wrapper (src lines 120-155),
entered after the computation produced `result`: if the key appeared in
the meantime, do nothing; else if the cache is full, overwrite the root
with the new key and result, advance the root to the oldest link, empty
that link and swap the keys in the dict; otherwise allocate a fresh link
in front of the root and record fullness. -/
def Bounded.wrapperStore {α : Type} (maxsize : Nat) (s : BoundedSt α)
    (key : CacheKey) (result : α) : BoundedSt α :=
  if (dictGet s.cache key).isSome then
    s
  else if s.full then
    let oldroot := s.rootId
    let n1 := updNode s.nodes oldroot
      { s.nodes oldroot with key := some key, result := some result }
    let newrootId := (n1 oldroot).next
    let oldkey := (n1 newrootId).key
    let n2 := updNode n1 newrootId { n1 newrootId with key := none, result := none }
    let cache1 :=
      match oldkey with
      | some k => dictDel s.cache k
      | none => s.cache
    { s with nodes := n2, rootId := newrootId, cache := dictSet cache1 key oldroot }
  else
    let last := (s.nodes s.rootId).prev
    let linkId := s.nextId
    let n1 := updNode s.nodes linkId
      { prev := last, next := s.rootId, key := some key, result := some result }
    let n2 := updNode n1 last { n1 last with next := linkId }
    let n3 := updNode n2 s.rootId { n2 s.rootId with prev := linkId }
    let cache1 := dictSet s.cache key linkId
    { s with nodes := n3, nextId := s.nextId + 1, cache := cache1,
             full := decide (cache1.length ≥ maxsize) }

/-- Observable outcome of one bounded call: a hit returns the RESULT slot
of the promoted link without awaiting the computation; a miss awaits it
and either returns its value or propagates its failure. -/
inductive BoundedOutcome (ε α : Type) where
  | hit (r : Option α)
  | missOk (r : α)
  | missFail (e : ε)
deriving DecidableEq

/-- Continuation of a bounded call after its lookup missed (src lines
119-155): await the computation; a failure propagates with the state left
as the first critical section produced it, a success runs the store block
and the call returns its own freshly computed result (line 155). -/
def Bounded.wrapperResume {ε α : Type} (maxsize : Nat) (s : BoundedSt α)
    (key : CacheKey) (comp : Except ε α) : BoundedOutcome ε α × BoundedSt α :=
  match comp with
  | Except.error e => (BoundedOutcome.missFail e, s)
  | Except.ok result =>
      (BoundedOutcome.missOk result, Bounded.wrapperStore maxsize s key result)

/-- One complete bounded call (src lines 101-155) with no interleaving:
build the key, run the lookup section, and on a miss run the computation
and the store section. -/
def Bounded.wrapper {ε α : Type} (maxsize : Nat) (typed : Bool) (comp : Except ε α)
    (s : BoundedSt α) (args : List PyVal) : BoundedOutcome ε α × BoundedSt α :=
  let key := make_key args typed
  match Bounded.wrapperLookup s key with
  | (LookupRes.hit r, s1) => (BoundedOutcome.hit r, s1)
  | (LookupRes.miss, s1) => Bounded.wrapperResume maxsize s1 key comp

/-- Runs a sequence of bounded calls, each given its positional arguments
and what its awaited computation would produce. -/
def Bounded.run {ε α : Type} (maxsize : Nat) (typed : Bool) :
    List (List PyVal × Except ε α) → BoundedSt α → List (BoundedOutcome ε α) × BoundedSt α
  | [], s => ([], s)
  | (args, comp) :: rest, s =>
      let p := Bounded.wrapper maxsize typed comp s args
      let q := Bounded.run maxsize typed rest p.2
      (p.1 :: q.1, q.2)

/-- Statistics of a bounded cache, as reported by `cache_info()` (src
lines 157-160). -/
def Bounded.cache_info {α : Type} (maxsize : Nat) (s : BoundedSt α) : CacheInfo :=
  { hits := s.hits, misses := s.misses, maxsize := some maxsize,
    currsize := s.cache.length }

/-- Clearing a bounded cache (src lines 162-169): empty the dict, reset
the root sentinel to a self loop with empty slots, zero both counters and
drop the full flag. -/
def Bounded.cache_clear {α : Type} (s : BoundedSt α) : BoundedSt α :=
  { s with cache := []
         , nodes := updNode s.nodes s.rootId
             { prev := s.rootId, next := s.rootId, key := none, result := none }
         , hits := 0
         , misses := 0
         , full := false }

/-- Ids of the links reached by walking the circular list from `cur`
along NEXT pointers until the root reappears, with explicit fuel. -/
def walkIds {α : Type} (s : BoundedSt α) : Nat → Nat → List Nat
  | 0, _ => []
  | fuel + 1, cur =>
      let nid := (s.nodes cur).next
      if nid = s.rootId then [] else nid :: walkIds s fuel nid

/-- States of a bounded cache reachable from the fresh state by any
sequence of complete calls (with arbitrary arguments and computation
behaviours) and clears. -/
inductive Bounded.Reachable (ε α : Type) (maxsize : Nat) (typed : Bool) :
    BoundedSt α → Prop where
  | start : Bounded.Reachable ε α maxsize typed (boundedInit α)
  | callStep : ∀ {s : BoundedSt α} (args : List PyVal) (comp : Except ε α),
      Bounded.Reachable ε α maxsize typed s →
      Bounded.Reachable ε α maxsize typed (Bounded.wrapper maxsize typed comp s args).2
  | clearStep : ∀ {s : BoundedSt α},
      Bounded.Reachable ε α maxsize typed s →
      Bounded.Reachable ε α maxsize typed (Bounded.cache_clear s)


/-- Claim C1: with capacity 2 and type sensitivity off, over a
deterministic computation, the call sequence f(1), f(2), f(1), f(3)
produces outcomes miss, miss, hit, miss; afterwards exactly the keys for
arguments 1 and 3 are stored (the key for 2 has been evicted) and the
statistics snapshot equals hits 1, misses 3, capacity 2, current size 2. -/
theorem claim_C1 :
    let calls : List (List PyVal × Except Unit Int) :=
      [([pyInt 1], Except.ok 1), ([pyInt 2], Except.ok 2),
       ([pyInt 1], Except.ok 1), ([pyInt 3], Except.ok 3)]
    let r := Bounded.run 2 false calls (boundedInit Int)
    r.1 = [BoundedOutcome.missOk 1, BoundedOutcome.missOk 2,
           BoundedOutcome.hit (some 1), BoundedOutcome.missOk 3] ∧
    r.2.cache.map Prod.fst = [CacheKey.fast (pyInt 1), CacheKey.fast (pyInt 3)] ∧
    Bounded.cache_info 2 r.2 =
      { hits := 1, misses := 3, maxsize := some 2, currsize := 2 } := by
  decide

/-- Claim C3: if the underlying computation fails on a missing key, the
bounded call reports the very same failure, the whole state change is a
single miss-counter increment (no entry is stored, nothing is evicted),
and the key is still absent afterwards. -/
theorem claim_C3 (ε α : Type) (maxsize : Nat) (typed : Bool) (s : BoundedSt α)
    (args : List PyVal) (e : ε)
    (hmiss : dictGet s.cache (make_key args typed) = none) :
    Bounded.wrapper maxsize typed (Except.error e) s args =
      (BoundedOutcome.missFail e, { s with misses := s.misses + 1 }) ∧
    dictGet (Bounded.wrapper maxsize typed (Except.error e) s args).2.cache
      (make_key args typed) = none := by
  constructor
  · simp [Bounded.wrapper, Bounded.wrapperLookup, hmiss, Bounded.wrapperResume]
  · simp [Bounded.wrapper, Bounded.wrapperLookup, hmiss, Bounded.wrapperResume]

/-- Witness for claim C3 at a concrete input: the fresh cache does not
contain the key of argument 1, and a failing call from there behaves as
claim C3 states. -/
theorem claim_C3_witness :
    dictGet (boundedInit Int).cache (make_key [pyInt 1] false) = none ∧
    (Bounded.wrapper 2 false (Except.error ()) (boundedInit Int) [pyInt 1] =
       (BoundedOutcome.missFail (),
        { boundedInit Int with misses := (boundedInit Int).misses + 1 }) ∧
     dictGet (Bounded.wrapper 2 false (Except.error ()) (boundedInit Int)
       [pyInt 1]).2.cache (make_key [pyInt 1] false) = none) :=
  ⟨rfl, claim_C3 Unit Int 2 false (boundedInit Int) [pyInt 1] () rfl⟩

/-- Claim C6, counterexample to the second half: with type sensitivity
disabled, calling with the integer 1 and then with the float 1.0 does not
collide into a single entry; the second call is a miss and two distinct
entries are stored, because the lone integer argument takes the bare
fast-path key while the float is wrapped in a key sequence. -/
theorem claim_C6_cex :
    let r := Bounded.run 128 false
      [([pyInt 1], (Except.ok 10 : Except Unit Int)), ([pyFloat 1], Except.ok 20)]
      (boundedInit Int)
    r.1 = [BoundedOutcome.missOk 10, BoundedOutcome.missOk 20] ∧
    r.2.cache.length = 2 := by
  decide

/-- Claim C6 as amended: with type sensitivity enabled, a call with the
integer 1 and a call with the float 1.0 produce two distinct cache
entries; with type sensitivity disabled the two single-argument calls
also produce two distinct entries, since the integer is used bare as its
key (the fast path for int arguments) while the float argument yields a
wrapped key, and the two keys are unequal. -/
theorem claim_C6 :
    (keyEq (make_key [pyInt 1] true) (make_key [pyFloat 1] true) = false ∧
     (Bounded.run 128 true
        [([pyInt 1], (Except.ok 10 : Except Unit Int)), ([pyFloat 1], Except.ok 20)]
        (boundedInit Int)).1 =
          [BoundedOutcome.missOk 10, BoundedOutcome.missOk 20] ∧
     (Bounded.run 128 true
        [([pyInt 1], (Except.ok 10 : Except Unit Int)), ([pyFloat 1], Except.ok 20)]
        (boundedInit Int)).2.cache.length = 2) ∧
    (make_key [pyInt 1] false = CacheKey.fast (pyInt 1) ∧
     make_key [pyFloat 1] false = CacheKey.seq [pyFloat 1] [] ∧
     keyEq (make_key [pyInt 1] false) (make_key [pyFloat 1] false) = false ∧
     (Bounded.run 128 false
        [([pyInt 1], (Except.ok 10 : Except Unit Int)), ([pyFloat 1], Except.ok 20)]
        (boundedInit Int)).2.cache.length = 2) := by
  decide

/-- Claim C7: with capacity zero, every call is a miss, increments the
miss counter by one and awaits the underlying computation exactly once
(the outcome is always the miss outcome of that call's own computation,
never a hit); the hit counter and the (empty) storage never change. -/
theorem claim_C7 (ε α : Type) (comps : List (Except ε α)) (s : SimpleSt α) :
    (MaxsizeZero.run comps s).1 =
      comps.map (fun c =>
        match c with
        | Except.ok v => SimpleOutcome.missOk v
        | Except.error e => SimpleOutcome.missFail e) ∧
    (MaxsizeZero.run comps s).2.misses = s.misses + comps.length ∧
    (MaxsizeZero.run comps s).2.hits = s.hits ∧
    (MaxsizeZero.run comps s).2.cache = s.cache := by
  induction comps generalizing s with
  | nil => simp [MaxsizeZero.run]
  | cons c rest ih =>
      cases c with
      | ok v =>
          refine ⟨?_, ?_, ?_, ?_⟩ <;>
            simp [MaxsizeZero.run, MaxsizeZero.wrapper, ih] <;> omega
      | error e =>
          refine ⟨?_, ?_, ?_, ?_⟩ <;>
            simp [MaxsizeZero.run, MaxsizeZero.wrapper, ih] <;> omega

/-- Claim C8, counterexample: the only counter-resetting operation the
cache exposes is cache_clear, and it does not leave the stored entries
unchanged: after one stored call, clearing zeroes both counters but also
drops the stored entry. -/
theorem claim_C8_cex :
    let s := (Bounded.wrapper 128 false (Except.ok 7 : Except Unit Int)
      (boundedInit Int) [pyInt 1]).2
    s.cache.length = 1 ∧
    (Bounded.cache_clear s).hits = 0 ∧
    (Bounded.cache_clear s).misses = 0 ∧
    (Bounded.cache_clear s).cache.length = 0 := by
  decide

/-- Claim C8 as amended: the reset operation the cache exposes is
cache_clear, which sets the hit and miss counters to zero and at the same
time removes all stored entries, drops the full flag and resets the
recency list to the empty ring around the unchanged root sentinel; the
configured capacity is unchanged. -/
theorem claim_C8 (α : Type) (maxsize : Nat) (s : BoundedSt α) :
    (Bounded.cache_clear s).hits = 0 ∧
    (Bounded.cache_clear s).misses = 0 ∧
    (Bounded.cache_clear s).cache = [] ∧
    (Bounded.cache_clear s).full = false ∧
    (Bounded.cache_clear s).rootId = s.rootId ∧
    (Bounded.cache_clear s).nextId = s.nextId ∧
    (∀ fuel : Nat,
      walkIds (Bounded.cache_clear s) fuel (Bounded.cache_clear s).rootId = []) ∧
    (Bounded.cache_info maxsize (Bounded.cache_clear s)).maxsize =
      (Bounded.cache_info maxsize s).maxsize := by
  refine ⟨rfl, rfl, rfl, rfl, rfl, rfl, ?_, rfl⟩
  intro fuel
  cases fuel with
  | zero => rfl
  | succ n => simp [walkIds, Bounded.cache_clear, updNode]

/-- Claim C10: when a bounded call reaches the post-computation store step
and finds its key already cached (a concurrent call for the same key
completed first), it returns its own freshly computed result and leaves
the entire cache state, including mapping, recency list and full flag,
unchanged; consequently two interleaved callers for one key can observe
different result objects while only the first writer's result is cached. -/
theorem claim_C10 :
    (∀ (ε α : Type) (maxsize : Nat) (s : BoundedSt α) (key : CacheKey) (result : α),
        (dictGet s.cache key).isSome = true →
        Bounded.wrapperResume maxsize s key (Except.ok result : Except ε α) =
          (BoundedOutcome.missOk result, s)) ∧
    (let k := make_key [pyInt 1] false
     let s1 := (Bounded.wrapperLookup (boundedInit Int) k).2
     let s2 := (Bounded.wrapperLookup s1 k).2
     let sB := (Bounded.wrapperResume 128 s2 k (Except.ok 20 : Except Unit Int)).2
     (Bounded.wrapperResume 128 sB k (Except.ok 10 : Except Unit Int)).1 =
        BoundedOutcome.missOk 10 ∧
     (Bounded.wrapperResume 128 sB k (Except.ok 10 : Except Unit Int)).2 = sB ∧
     (dictGet sB.cache k).map (fun i => (sB.nodes i).result) = some (some 20) ∧
     sB.misses = 2 ∧ sB.cache.length = 1) := by
  constructor
  · intro ε α maxsize s key result h
    simp [Bounded.wrapperResume, Bounded.wrapperStore, h]
  · exact ⟨rfl, rfl, by decide, rfl, rfl⟩

/-- Witness for claim C10 at a concrete input: after one stored call the
key of argument 1 is present, and a resume step for that key returns its
own result 99 and leaves the state untouched. -/
theorem claim_C10_witness :
    (dictGet (Bounded.wrapper 128 false (Except.ok 7 : Except Unit Int)
        (boundedInit Int) [pyInt 1]).2.cache (make_key [pyInt 1] false)).isSome = true ∧
    Bounded.wrapperResume 128
        (Bounded.wrapper 128 false (Except.ok 7 : Except Unit Int)
          (boundedInit Int) [pyInt 1]).2
        (make_key [pyInt 1] false) (Except.ok 99 : Except Unit Int) =
      (BoundedOutcome.missOk 99,
       (Bounded.wrapper 128 false (Except.ok 7 : Except Unit Int)
         (boundedInit Int) [pyInt 1]).2) :=
  ⟨by decide,
   claim_C10.1 Unit Int 128
     (Bounded.wrapper 128 false (Except.ok 7 : Except Unit Int)
       (boundedInit Int) [pyInt 1]).2
     (make_key [pyInt 1] false) 99 (by decide)⟩

/-- Python equality on values is reflexive. -/
theorem pyEq_refl (a : PyVal) : pyEq a a = true := by
  simp [pyEq]

/-- Characterization of Python equality on values: it compares the
integer magnitudes. -/
theorem pyEq_iff {a b : PyVal} : pyEq a b = true ↔ a.val = b.val := by
  simp [pyEq]

/-- Characterization of Python equality on argument tuples: the magnitude
sequences coincide. -/
theorem pyListEq_iff {as bs : List PyVal} :
    pyListEq as bs = true ↔ as.map PyVal.val = bs.map PyVal.val := by
  induction as generalizing bs with
  | nil => cases bs <;> simp [pyListEq]
  | cons a as ih =>
      cases bs with
      | nil => simp [pyListEq]
      | cons b bs => simp [pyListEq, pyEq_iff, ih]

/-- Python key equality is reflexive. -/
theorem keyEq_refl (k : CacheKey) : keyEq k k = true := by
  cases k with
  | fast v => simp [keyEq, pyEq_refl]
  | seq vals tys => simp [keyEq, pyListEq_iff]

/-- Python key equality is symmetric. -/
theorem keyEq_symm_iff {a b : CacheKey} : keyEq a b = true ↔ keyEq b a = true := by
  cases a <;> cases b <;> simp [keyEq, pyEq_iff, pyListEq_iff]
  · exact eq_comm
  · constructor
    · rintro ⟨h1, h2⟩
      exact ⟨h1.symm, h2.symm⟩
    · rintro ⟨h1, h2⟩
      exact ⟨h1.symm, h2.symm⟩

/-- Key inequality is symmetric. -/
theorem keyEq_false_symm {a b : CacheKey} (h : keyEq a b = false) : keyEq b a = false := by
  by_contra hb
  have : keyEq b a = true := by
    cases hval : keyEq b a
    · exact absurd hval hb
    · rfl
  exact absurd (keyEq_symm_iff.mpr this) (by simp [h])

/-- Python key equality is transitive. -/
theorem keyEq_trans {a b c : CacheKey} (h1 : keyEq a b = true)
    (h2 : keyEq b c = true) : keyEq a c = true := by
  cases a <;> cases b <;> cases c <;>
    simp_all [keyEq, pyEq_iff, pyListEq_iff]

/-- A dictionary lookup returns none exactly when no stored key is
Python-equal to the probe. -/
theorem dictGet_eq_none_iff {β : Type} {l : List (CacheKey × β)} {k : CacheKey} :
    dictGet l k = none ↔ ∀ p ∈ l, keyEq p.1 k = false := by
  induction l with
  | nil => simp [dictGet]
  | cons p rest ih =>
      obtain ⟨k', v⟩ := p
      by_cases h : keyEq k' k = true
      · simp [dictGet, h]
      · have hf : keyEq k' k = false := by
          cases hval : keyEq k' k
          · rfl
          · exact absurd hval h
        simp [dictGet, hf, ih]

/-- A successful dictionary lookup comes from a stored entry whose key is
Python-equal to the probe. -/
theorem dictGet_mem {β : Type} {l : List (CacheKey × β)} {k : CacheKey} {v : β}
    (h : dictGet l k = some v) : ∃ k', (k', v) ∈ l ∧ keyEq k' k = true := by
  induction l with
  | nil => simp [dictGet] at h
  | cons p rest ih =>
      obtain ⟨k', v'⟩ := p
      by_cases hk : keyEq k' k = true
      · simp [dictGet, hk] at h
        exact ⟨k', by simp [h], hk⟩
      · have hf : keyEq k' k = false := by
          cases hval : keyEq k' k
          · rfl
          · exact absurd hval hk
        simp [dictGet, hf] at h
        obtain ⟨k'', hmem, hk''⟩ := ih h
        exact ⟨k'', by simp [hmem], hk''⟩

/-- Pairwise Python-inequality of the stored keys of a dictionary. -/
def KeysDistinct {β : Type} (l : List (CacheKey × β)) : Prop :=
  l.Pairwise (fun p q => keyEq p.1 q.1 = false)

/-- In a dictionary with pairwise distinct keys, any stored entry whose
key matches the probe is the lookup result. -/
theorem dictGet_of_mem {β : Type} {l : List (CacheKey × β)}
    (hd : KeysDistinct l) {k k' : CacheKey} {v : β}
    (hm : (k', v) ∈ l) (hk : keyEq k' k = true) : dictGet l k = some v := by
  induction l with
  | nil => simp at hm
  | cons p rest ih =>
      obtain ⟨k0, v0⟩ := p
      rcases List.mem_cons.mp hm with heq | hmem
      · obtain ⟨h1, h2⟩ := Prod.mk.injEq .. ▸ heq
        subst h1
        subst h2
        simp [dictGet, hk]
      · have hd' : KeysDistinct rest := (List.pairwise_cons.mp hd).2
        have h0 : keyEq k0 k' = false := (List.pairwise_cons.mp hd).1 (k', v) hmem
        have h0k : keyEq k0 k = false := by
          by_contra hb
          have h0k' : keyEq k0 k = true := by
            cases hval : keyEq k0 k
            · exact absurd hval hb
            · rfl
          have : keyEq k0 k' = true := keyEq_trans h0k' (keyEq_symm_iff.mp hk)
          simp [this] at h0
        simp [dictGet, h0k]
        exact ih hd' hmem

/-- Lookup in a dictionary with pairwise distinct keys is invariant under
permutation of its entries. -/
theorem dictGet_perm {β : Type} {l l' : List (CacheKey × β)}
    (hp : l.Perm l') (hd : KeysDistinct l) (k : CacheKey) :
    dictGet l k = dictGet l' k := by
  have hd' : KeysDistinct l' := by
    exact (hp.pairwise_iff fun h => keyEq_false_symm h).mp hd
  cases h : dictGet l k with
  | some v =>
      obtain ⟨k', hm, hk⟩ := dictGet_mem h
      exact (dictGet_of_mem hd' (hp.mem_iff.mp hm) hk).symm
  | none =>
      have := dictGet_eq_none_iff.mp h
      exact (dictGet_eq_none_iff.mpr fun p hm => this p (hp.mem_iff.mpr hm)).symm

/-- Deleting from a dictionary with pairwise distinct keys removes
exactly the Python-equal entries. -/
theorem dictDel_eq_filter {β : Type} {l : List (CacheKey × β)}
    (hd : KeysDistinct l) (k : CacheKey) :
    dictDel l k = l.filter (fun p => !keyEq p.1 k) := by
  induction l with
  | nil => simp [dictDel]
  | cons p rest ih =>
      obtain ⟨k0, v0⟩ := p
      have hd' : KeysDistinct rest := (List.pairwise_cons.mp hd).2
      by_cases h : keyEq k0 k = true
      · have hrest : ∀ q ∈ rest, (fun p : CacheKey × β => !keyEq p.1 k) q = true := by
          intro q hq
          have h0 : keyEq k0 q.1 = false :=
            (List.pairwise_cons.mp hd).1 q hq
          have : keyEq q.1 k = false := by
            by_contra hb
            have hq' : keyEq q.1 k = true := by
              cases hval : keyEq q.1 k
              · exact absurd hval hb
              · rfl
            have : keyEq k0 q.1 = true :=
              keyEq_trans h (keyEq_symm_iff.mp hq')
            simp [this] at h0
          simp [this]
        simp [dictDel, h, List.filter_cons, (List.filter_eq_self).mpr hrest]
      · have hf : keyEq k0 k = false := by
          cases hval : keyEq k0 k
          · rfl
          · exact absurd hval h
        simp [dictDel, hf, List.filter_cons, ih hd']

/-- Assigning an absent key appends the new entry. -/
theorem dictSet_of_absent {β : Type} {l : List (CacheKey × β)} {k : CacheKey}
    (h : ∀ p ∈ l, keyEq p.1 k = false) (v : β) :
    dictSet l k v = l ++ [(k, v)] := by
  induction l with
  | nil => simp [dictSet]
  | cons p rest ih =>
      obtain ⟨k0, v0⟩ := p
      have h0 : keyEq k0 k = false := h (k0, v0) (by simp)
      simp [dictSet, h0]
      exact ih fun q hq => h q (by simp [hq])

/-- A lookup that succeeds on a prefix succeeds on the whole list. -/
theorem dictGet_append_left {β : Type} {l l' : List (CacheKey × β)}
    {k : CacheKey} {v : β} (h : dictGet l k = some v) :
    dictGet (l ++ l') k = some v := by
  induction l with
  | nil => simp [dictGet] at h
  | cons p rest ih =>
      obtain ⟨k0, v0⟩ := p
      by_cases hk : keyEq k0 k = true
      · simp [dictGet, hk] at h ⊢
        exact h
      · have hf : keyEq k0 k = false := by
          cases hval : keyEq k0 k
          · rfl
          · exact absurd hval hk
        simp [dictGet, hf] at h ⊢
        exact ih h

/-- Every entry of a deletion result was stored before. -/
theorem mem_dictDel {β : Type} {l : List (CacheKey × β)} {k : CacheKey}
    {p : CacheKey × β} (h : p ∈ dictDel l k) : p ∈ l := by
  induction l with
  | nil => simp [dictDel] at h
  | cons q rest ih =>
      obtain ⟨k0, v0⟩ := q
      by_cases hk : keyEq k0 k = true
      · simp [dictDel, hk] at h
        simp [h]
      · have hf : keyEq k0 k = false := by
          cases hval : keyEq k0 k
          · rfl
          · exact absurd hval hk
        simp [dictDel, hf] at h
        rcases h with h | h
        · simp [h]
        · simp [ih h]

/-- Deletion shrinks a dictionary by at most one entry. -/
theorem dictDel_length_ge {β : Type} (l : List (CacheKey × β)) (k : CacheKey) :
    l.length ≤ (dictDel l k).length + 1 := by
  induction l with
  | nil => simp [dictDel]
  | cons p rest ih =>
      obtain ⟨k0, v0⟩ := p
      by_cases hk : keyEq k0 k = true
      · simp [dictDel, hk]
      · have hf : keyEq k0 k = false := by
          cases hval : keyEq k0 k
          · rfl
          · exact absurd hval hk
        simp [dictDel, hf]
        omega

/-- Assignment never shrinks a dictionary. -/
theorem dictSet_length_ge {β : Type} (l : List (CacheKey × β)) (k : CacheKey) (v : β) :
    l.length ≤ (dictSet l k v).length := by
  induction l with
  | nil => simp [dictSet]
  | cons p rest ih =>
      obtain ⟨k0, v0⟩ := p
      by_cases hk : keyEq k0 k = true
      · simp [dictSet, hk]
      · have hf : keyEq k0 k = false := by
          cases hval : keyEq k0 k
          · rfl
          · exact absurd hval hk
        simp [dictSet, hf]
        omega

/-- The pointer relation of the circular list: `b` follows `a` when the
NEXT slot of `a` holds `b` and the PREV slot of `b` holds `a`. -/
def nodesRel {α : Type} (s : BoundedSt α) (a b : Nat) : Prop :=
  (s.nodes a).next = b ∧ (s.nodes b).prev = a

/-- The last element of a nonempty cons list, with the head as default. -/
theorem getLast?_cons_eq (a : Nat) (l : List Nat) :
    (a :: l).getLast? = some (l.getLastD a) := by
  induction l generalizing a with
  | nil => rfl
  | cons b t ih => simp [List.getLast?_cons_cons, ih b, List.getLastD_cons]

/-- The head of a list with one appended element, as a default-headed
value. -/
theorem head?_append_singleton (a : Nat) (l : List Nat) :
    (l ++ [a]).head? = some (l.headD a) := by
  cases l <;> rfl

/-- A pointer chain survives a heap change that leaves the NEXT slots of
all but the last element and the PREV slots of all but the first element
untouched. -/
theorem chain_transfer {α : Type} {s s' : BoundedSt α} :
    ∀ {l : List Nat}, List.Chain' (nodesRel s) l →
      (∀ i ∈ l.dropLast, (s'.nodes i).next = (s.nodes i).next) →
      (∀ i ∈ l.tail, (s'.nodes i).prev = (s.nodes i).prev) →
      List.Chain' (nodesRel s') l
  | [], _, _, _ => List.chain'_nil
  | [a], _, _, _ => List.chain'_singleton a
  | a :: b :: l, h, hn, hp => by
      rw [List.chain'_cons] at h
      obtain ⟨⟨h1, h2⟩, hrest⟩ := h
      rw [List.chain'_cons]
      refine ⟨⟨?_, ?_⟩, ?_⟩
      · rw [hn a (by simp [List.dropLast_cons₂])]
        exact h1
      · rw [hp b (by simp)]
        exact h2
      · refine chain_transfer hrest (fun i hi => hn i ?_) (fun i hi => hp i ?_)
        · rw [List.dropLast_cons₂]
          exact List.mem_cons_of_mem a hi
        · simp only [List.tail_cons] at hi
          simp [hi]

/-- Rotating a closed pointer cycle by one position: if the cycle runs
a, b, xs back to a, then it equally runs b, xs, a back to b. -/
theorem chain_rotate {R : Nat → Nat → Prop} {a b : Nat} {xs : List Nat}
    (h : List.Chain' R ((a :: b :: xs) ++ [a])) :
    List.Chain' R ((b :: xs) ++ [a, b]) := by
  simp only [List.cons_append, List.chain'_cons] at h
  obtain ⟨hab, hrest⟩ := h
  have hsplit : (b :: xs) ++ [a, b] = ((b :: xs) ++ [a]) ++ [b] := by simp
  rw [hsplit, List.chain'_append]
  refine ⟨by simpa using hrest, List.chain'_singleton b, ?_⟩
  intro x hx y hy
  simp only [List.head?_cons, Option.mem_def, Option.some.injEq] at hy
  subst hy
  rw [List.getLast?_concat] at hx
  simp only [Option.mem_def, Option.some.injEq] at hx
  subst hx
  exact hab

/-- Walking the circular list from a node follows a pointer chain that
ends at the root, provided the fuel covers the chain length. -/
theorem walk_of_chain {α : Type} {s : BoundedSt α} {l : List Nat} :
    ∀ {cur fuel : Nat},
      List.Chain' (nodesRel s) (cur :: l ++ [s.rootId]) →
      s.rootId ∉ l → l.length + 1 ≤ fuel →
      walkIds s fuel cur = l := by
  induction l with
  | nil =>
      intro cur fuel h _ hf
      cases fuel with
      | zero => omega
      | succ n =>
          have h' : List.Chain' (nodesRel s) [cur, s.rootId] := by simpa using h
          rw [List.chain'_pair] at h'
          simp [walkIds, h'.1]
  | cons b t ih =>
      intro cur fuel h hroot hf
      cases fuel with
      | zero => simp at hf
      | succ f =>
          simp only [List.cons_append, List.chain'_cons] at h
          obtain ⟨⟨h1, _⟩, hrest⟩ := h
          have hb : b ≠ s.rootId := by
            intro hcontra
            exact hroot (by simp [hcontra])
          have hroot' : s.rootId ∉ t := fun hm => hroot (by simp [hm])
          have hf' : t.length + 1 ≤ f := by
            simp at hf
            omega
          simp only [walkIds, h1, if_neg hb]
          rw [ih (by simpa using hrest) hroot' hf']

/-- One live entry of the bounded cache: the id of its link, its key and
its stored result. -/
structure Entry (α : Type) where
  id : Nat
  key : CacheKey
  result : α

/-- Link ids of a list of entries. -/
def entryIds {α : Type} (es : List (Entry α)) : List Nat := es.map Entry.id

/-- Dictionary contents corresponding to a list of entries. -/
def entryPairs {α : Type} (es : List (Entry α)) : List (CacheKey × Nat) :=
  es.map (fun e => (e.key, e.id))

/-- Structural invariant of a bounded cache with capacity `N`: `es` lists
the live entries from least recently used (right after the root) to most
recently used (right before the root).  The root and the entry links form
the circular list in that order, all ids are allocated and distinct, each
link carries its entry's key and result, keys are pairwise distinct in
the Python sense, the dict holds exactly the key-to-id pairs of the
entries, the size respects the capacity, and the full flag mirrors the
size-versus-capacity comparison. -/
structure Inv {α : Type} (N : Nat) (s : BoundedSt α) (es : List (Entry α)) : Prop where
  ring : List.Chain' (nodesRel s) (s.rootId :: entryIds es ++ [s.rootId])
  nodup : (s.rootId :: entryIds es).Nodup
  bound : ∀ i ∈ s.rootId :: entryIds es, i < s.nextId
  node_key : ∀ e ∈ es, (s.nodes e.id).key = some e.key
  node_result : ∀ e ∈ es, (s.nodes e.id).result = some e.result
  keys_distinct : es.Pairwise (fun a b => keyEq a.key b.key = false)
  cache_perm : s.cache.Perm (entryPairs es)
  size_le : es.length ≤ N
  full_ok : s.full = decide (es.length ≥ N)

/-- The fresh bounded state satisfies the invariant with no entries, for
any positive capacity. -/
theorem inv_start {α : Type} {N : Nat} (hN : 0 < N) :
    Inv N (boundedInit α) [] := by
  refine ⟨?_, ?_, ?_, ?_, ?_, ?_, ?_, ?_, ?_⟩
  · have hl : (boundedInit α).rootId :: entryIds ([] : List (Entry α)) ++
        [(boundedInit α).rootId] = [0, 0] := rfl
    rw [hl, List.chain'_pair]
    exact ⟨rfl, rfl⟩
  · simp [entryIds, boundedInit]
  · simp [entryIds, boundedInit]
  · simp
  · simp
  · simp
  · simp [entryPairs, boundedInit]
  · simp
  · simp [boundedInit]
    omega

/-- Clearing restores the empty-ring invariant for any positive
capacity. -/
theorem inv_clear {α : Type} {N : Nat} {s : BoundedSt α} {es : List (Entry α)}
    (hN : 0 < N) (hInv : Inv N s es) :
    Inv N (Bounded.cache_clear s) [] := by
  refine ⟨?_, ?_, ?_, ?_, ?_, ?_, ?_, ?_, ?_⟩
  · have hl : (Bounded.cache_clear s).rootId :: entryIds ([] : List (Entry α)) ++
        [(Bounded.cache_clear s).rootId] = [s.rootId, s.rootId] := rfl
    rw [hl, List.chain'_pair]
    constructor
    · simp [nodesRel, Bounded.cache_clear, updNode]
    · simp [nodesRel, Bounded.cache_clear, updNode]
  · simp [entryIds]
  · simp [entryIds, Bounded.cache_clear]
    exact hInv.bound s.rootId (by simp)
  · simp
  · simp
  · simp
  · simp [entryPairs, Bounded.cache_clear]
  · simp
  · simp [Bounded.cache_clear]
    omega

/-- The default-valued last element of a list is among the default and
the list. -/
theorem getLastD_mem (a : Nat) (l : List Nat) : l.getLastD a ∈ a :: l := by
  induction l generalizing a with
  | nil => exact List.mem_cons_self a []
  | cons b t ih =>
      rw [List.getLastD_cons]
      rcases List.mem_cons.mp (ih b) with h | h
      · rw [h]
        exact List.mem_cons_of_mem _ (List.mem_cons_self _ _)
      · exact List.mem_cons_of_mem _ (List.mem_cons_of_mem _ h)

/-- The default-valued head of a list is among the default and the
list. -/
theorem headD_mem (a : Nat) (l : List Nat) : l.headD a ∈ a :: l := by
  cases l with
  | nil => exact List.mem_cons_self a []
  | cons b t => exact List.mem_cons_of_mem _ (List.mem_cons_self _ _)

/-- In a duplicate-free nonempty list, the last element does not occur
before the last position. -/
theorem getLastD_not_mem_dropLast {a : Nat} {l : List Nat}
    (hnd : (a :: l).Nodup) : l.getLastD a ∉ (a :: l).dropLast := by
  intro hmem
  have hne : (a :: l) ≠ [] := by simp
  have hlast : (a :: l).getLast hne = l.getLastD a := by
    have h1 := List.getLast?_eq_getLast (a :: l) hne
    have h2 := getLast?_cons_eq a l
    rw [h1] at h2
    exact Option.some.inj h2
  have hsplit := List.dropLast_append_getLast hne
  rw [← hsplit, List.nodup_append] at hnd
  refine hnd.2.2 hmem ?_
  rw [hlast]
  exact List.mem_cons_self _ _

/-- Splicing a fresh node in front of the root: if the heap change gives
the new node NEXT pointing at the root and PREV at the previous most
recently used node, rewires those two neighbours accordingly and leaves
every other NEXT and PREV slot of the ring alone, then the ring is the
old ring with the new node appended before the root. -/
theorem link_mru_chain {α : Type} {t t' : BoundedSt α} {ids : List Nat} {m : Nat}
    (hch : List.Chain' (nodesRel t) ((t.rootId :: ids) ++ [t.rootId]))
    (hnd : (t.rootId :: ids).Nodup)
    (hroot : t'.rootId = t.rootId)
    (hm_next : (t'.nodes m).next = t.rootId)
    (hm_prev : (t'.nodes m).prev = ids.getLastD t.rootId)
    (hlast_next : (t'.nodes (ids.getLastD t.rootId)).next = m)
    (hroot_prev : (t'.nodes t.rootId).prev = m)
    (hframe_next : ∀ i ∈ t.rootId :: ids, i ≠ ids.getLastD t.rootId →
        (t'.nodes i).next = (t.nodes i).next)
    (hframe_prev : ∀ i ∈ ids, (t'.nodes i).prev = (t.nodes i).prev) :
    List.Chain' (nodesRel t') ((t'.rootId :: (ids ++ [m])) ++ [t'.rootId]) := by
  rw [hroot]
  have hshape : (t.rootId :: (ids ++ [m])) ++ [t.rootId] =
      (t.rootId :: ids) ++ [m, t.rootId] := by simp
  rw [hshape]
  rw [List.chain'_append] at hch ⊢
  obtain ⟨hchL, _, _⟩ := hch
  refine ⟨?_, ?_, ?_⟩
  · refine chain_transfer hchL (fun i hi => ?_) (fun i hi => ?_)
    · refine hframe_next i (List.dropLast_subset _ hi) (fun hcontra => ?_)
      rw [hcontra] at hi
      exact getLastD_not_mem_dropLast hnd hi
    · simp only [List.tail_cons] at hi
      exact hframe_prev i hi
  · rw [List.chain'_pair]
    exact ⟨hm_next, hroot_prev⟩
  · intro x hx y hy
    rw [getLast?_cons_eq] at hx
    simp only [Option.mem_def, Option.some.injEq] at hx
    simp only [List.head?_cons, Option.mem_def, Option.some.injEq] at hy
    subst hx
    subst hy
    exact ⟨hlast_next, hm_prev⟩

/-- Unlinking a node from the ring: if the heap change points the NEXT
slot of the node's predecessor at its successor and the PREV slot of the
successor at the predecessor, leaving every other NEXT and PREV slot of
the remaining ring alone, then the ring loses exactly that node. -/
theorem unlink_chain {α : Type} {t t' : BoundedSt α} {uIds vIds : List Nat} {m : Nat}
    (hch : List.Chain' (nodesRel t) ((t.rootId :: (uIds ++ m :: vIds)) ++ [t.rootId]))
    (hnd : (t.rootId :: (uIds ++ m :: vIds)).Nodup)
    (hroot : t'.rootId = t.rootId)
    (hP_next : (t'.nodes (uIds.getLastD t.rootId)).next = vIds.headD t.rootId)
    (hQ_prev : (t'.nodes (vIds.headD t.rootId)).prev = uIds.getLastD t.rootId)
    (hframe_next : ∀ i ∈ t.rootId :: (uIds ++ vIds), i ≠ uIds.getLastD t.rootId →
        (t'.nodes i).next = (t.nodes i).next)
    (hframe_prev : ∀ i ∈ t.rootId :: (uIds ++ vIds), i ≠ vIds.headD t.rootId →
        (t'.nodes i).prev = (t.nodes i).prev) :
    List.Chain' (nodesRel t') ((t'.rootId :: (uIds ++ vIds)) ++ [t'.rootId]) := by
  rw [hroot]
  have hnd_u : (t.rootId :: uIds).Nodup := by
    refine List.Nodup.sublist ?_ hnd
    exact List.Sublist.cons₂ _ (List.sublist_append_left _ _)
  have hnd_v : vIds.Nodup := by
    refine List.Nodup.sublist ?_ hnd
    refine List.Sublist.cons _ ?_
    exact List.Sublist.trans (List.sublist_cons_self _ _) (List.sublist_append_right _ _)
  have hroot_notin : t.rootId ∉ uIds ++ m :: vIds := (List.nodup_cons.mp hnd).1
  have hdisj : ∀ i ∈ uIds, i ∉ m :: vIds := by
    intro i hiu hiv
    have h2 := (List.nodup_cons.mp hnd).2
    rw [List.nodup_append] at h2
    exact h2.2.2 hiu hiv
  have hPmem : uIds.getLastD t.rootId ∈ t.rootId :: uIds := getLastD_mem _ _
  have hQmem : vIds.headD t.rootId ∈ t.rootId :: vIds := headD_mem _ _
  -- Decompose the old ring.
  have hch' : List.Chain' (nodesRel t)
      ((t.rootId :: uIds) ++ (m :: (vIds ++ [t.rootId]))) := by
    have hshape : (t.rootId :: (uIds ++ m :: vIds)) ++ [t.rootId] =
        (t.rootId :: uIds) ++ (m :: (vIds ++ [t.rootId])) := by simp
    rw [← hshape]
    exact hch
  rw [List.chain'_append] at hch'
  obtain ⟨hchLu, hch2, hj1⟩ := hch'
  rw [List.chain'_cons'] at hch2
  obtain ⟨hj2, hch3⟩ := hch2
  rw [List.chain'_append] at hch3
  obtain ⟨hchv, _, hj3⟩ := hch3
  -- Junction facts of the old ring, in defaulted form.
  have hj1' : nodesRel t (uIds.getLastD t.rootId) m := by
    refine hj1 _ ?_ m (by simp)
    rw [getLast?_cons_eq]
    simp
  -- Rebuild the new ring.
  have hshape2 : (t.rootId :: (uIds ++ vIds)) ++ [t.rootId] =
      (t.rootId :: uIds) ++ (vIds ++ [t.rootId]) := by simp
  rw [hshape2, List.chain'_append]
  refine ⟨?_, ?_, ?_⟩
  · -- The prefix up to the unlinked node is untouched.
    refine chain_transfer hchLu (fun i hi => ?_) (fun i hi => ?_)
    · have himem : i ∈ t.rootId :: (uIds ++ vIds) := by
        rcases List.mem_cons.mp (List.dropLast_subset _ hi) with h | h
        · rw [h]
          exact List.mem_cons_self _ _
        · exact List.mem_cons_of_mem _ (List.mem_append_left _ h)
      refine hframe_next i himem (fun hcontra => ?_)
      rw [hcontra] at hi
      exact getLastD_not_mem_dropLast hnd_u hi
    · simp only [List.tail_cons] at hi
      have himem : i ∈ t.rootId :: (uIds ++ vIds) :=
        List.mem_cons_of_mem _ (List.mem_append_left _ hi)
      refine hframe_prev i himem (fun hcontra => ?_)
      rcases List.mem_cons.mp hQmem with hq | hq
      · rw [hcontra, hq] at hi
        exact hroot_notin (List.mem_append_left _ hi)
      · exact hdisj i hi (by rw [hcontra]; exact List.mem_cons_of_mem _ hq)
  · -- The suffix after the unlinked node, closed back to the root.
    rw [List.chain'_append]
    refine ⟨?_, List.chain'_singleton _, ?_⟩
    · refine chain_transfer hchv (fun i hi => ?_) (fun i hi => ?_)
      · have hiv : i ∈ vIds := List.dropLast_subset _ hi
        have himem : i ∈ t.rootId :: (uIds ++ vIds) :=
          List.mem_cons_of_mem _ (List.mem_append_right _ hiv)
        refine hframe_next i himem (fun hcontra => ?_)
        rcases List.mem_cons.mp hPmem with hp | hp
        · rw [hcontra, hp] at hiv
          exact hroot_notin (List.mem_append_right _ (List.mem_cons_of_mem _ hiv))
        · exact hdisj _ hp (by rw [← hcontra]; exact List.mem_cons_of_mem _ hiv)
      · cases vIds with
        | nil => simp at hi
        | cons q rest =>
            simp only [List.tail_cons] at hi
            have himem : i ∈ t.rootId :: (uIds ++ q :: rest) :=
              List.mem_cons_of_mem _
                (List.mem_append_right _ (List.mem_cons_of_mem _ hi))
            refine hframe_prev i himem (fun hcontra => ?_)
            have hqr : q ∉ rest := (List.nodup_cons.mp hnd_v).1
            rw [hcontra] at hi
            simp only [List.headD] at hi
            exact hqr hi
    · intro x hx y hy
      cases vIds with
      | nil => simp at hx
      | cons q rest =>
          rw [getLast?_cons_eq] at hx
          simp only [Option.mem_def, Option.some.injEq] at hx
          simp only [List.head?_cons, Option.mem_def, Option.some.injEq] at hy
          subst hx
          subst hy
          have hxv : rest.getLastD q ∈ q :: rest := getLastD_mem _ _
          have hj3' : nodesRel t (rest.getLastD q) t.rootId := by
            refine hj3 _ ?_ t.rootId (by simp)
            rw [getLast?_cons_eq]
            simp
          constructor
          · have himem : rest.getLastD q ∈ t.rootId :: (uIds ++ q :: rest) :=
              List.mem_cons_of_mem _ (List.mem_append_right _ hxv)
            rw [hframe_next _ himem ?_]
            · exact hj3'.1
            · intro hcontra
              rcases List.mem_cons.mp hPmem with hp | hp
              · rw [hcontra, hp] at hxv
                exact hroot_notin
                  (List.mem_append_right _ (List.mem_cons_of_mem _ hxv))
              · exact hdisj _ hp (by rw [← hcontra]; exact List.mem_cons_of_mem _ hxv)
          · rw [hframe_prev t.rootId (List.mem_cons_self _ _) ?_]
            · exact hj3'.2
            · intro hcontra
              simp only [List.headD] at hcontra
              rw [hcontra] at hroot_notin
              exact hroot_notin
                (List.mem_append_right _ (List.mem_cons_of_mem _ (List.mem_cons_self _ _)))
  · -- The junction across the removed node.
    intro x hx y hy
    rw [getLast?_cons_eq] at hx
    rw [head?_append_singleton] at hy
    simp only [Option.mem_def, Option.some.injEq] at hx hy
    subst hx
    subst hy
    exact ⟨hP_next, hQ_prev⟩

/-- Reading the updated slot gives the new node. -/
theorem updNode_same {α : Type} (f : Nat → Node α) (i : Nat) (n : Node α) :
    updNode f i n i = n := by
  simp [updNode]

/-- Reading any other slot gives the old node. -/
theorem updNode_other {α : Type} (f : Nat → Node α) {i j : Nat} (n : Node α)
    (h : j ≠ i) : updNode f i n j = f j := by
  simp [updNode, h]

/-- A NEXT-slot write preserves every PREV slot. -/
theorem upd_setNext_prev {α : Type} (f : Nat → Node α) (j x i : Nat) :
    (updNode f j { f j with next := x } i).prev = (f i).prev := by
  by_cases h : i = j
  · subst h
    simp [updNode]
  · simp [updNode, h]

/-- A NEXT-slot write preserves every KEY slot. -/
theorem upd_setNext_key {α : Type} (f : Nat → Node α) (j x i : Nat) :
    (updNode f j { f j with next := x } i).key = (f i).key := by
  by_cases h : i = j
  · subst h
    simp [updNode]
  · simp [updNode, h]

/-- A NEXT-slot write preserves every RESULT slot. -/
theorem upd_setNext_result {α : Type} (f : Nat → Node α) (j x i : Nat) :
    (updNode f j { f j with next := x } i).result = (f i).result := by
  by_cases h : i = j
  · subst h
    simp [updNode]
  · simp [updNode, h]

/-- A PREV-slot write preserves every NEXT slot. -/
theorem upd_setPrev_next {α : Type} (f : Nat → Node α) (j x i : Nat) :
    (updNode f j { f j with prev := x } i).next = (f i).next := by
  by_cases h : i = j
  · subst h
    simp [updNode]
  · simp [updNode, h]

/-- A PREV-slot write preserves every KEY slot. -/
theorem upd_setPrev_key {α : Type} (f : Nat → Node α) (j x i : Nat) :
    (updNode f j { f j with prev := x } i).key = (f i).key := by
  by_cases h : i = j
  · subst h
    simp [updNode]
  · simp [updNode, h]

/-- A PREV-slot write preserves every RESULT slot. -/
theorem upd_setPrev_result {α : Type} (f : Nat → Node α) (j x i : Nat) :
    (updNode f j { f j with prev := x } i).result = (f i).result := by
  by_cases h : i = j
  · subst h
    simp [updNode]
  · simp [updNode, h]

/-- A combined PREV-and-NEXT write preserves every KEY slot. -/
theorem upd_setPrevNext_key {α : Type} (f : Nat → Node α) (j p x i : Nat) :
    (updNode f j { f j with prev := p, next := x } i).key = (f i).key := by
  by_cases h : i = j
  · subst h
    simp [updNode]
  · simp [updNode, h]

/-- A combined PREV-and-NEXT write preserves every RESULT slot. -/
theorem upd_setPrevNext_result {α : Type} (f : Nat → Node α) (j p x i : Nat) :
    (updNode f j { f j with prev := p, next := x } i).result = (f i).result := by
  by_cases h : i = j
  · subst h
    simp [updNode]
  · simp [updNode, h]

/-- A KEY-and-RESULT write preserves every NEXT slot. -/
theorem upd_setKeyResult_next {α : Type} (f : Nat → Node α) (j : Nat)
    (k : Option CacheKey) (r : Option α) (i : Nat) :
    (updNode f j { f j with key := k, result := r } i).next = (f i).next := by
  by_cases h : i = j
  · subst h
    simp [updNode]
  · simp [updNode, h]

/-- A KEY-and-RESULT write preserves every PREV slot. -/
theorem upd_setKeyResult_prev {α : Type} (f : Nat → Node α) (j : Nat)
    (k : Option CacheKey) (r : Option α) (i : Nat) :
    (updNode f j { f j with key := k, result := r } i).prev = (f i).prev := by
  by_cases h : i = j
  · subst h
    simp [updNode]
  · simp [updNode, h]

/-- The default-last of an appended list ignores the first part when the
second is nonempty, and defaults through it otherwise. -/
theorem getLastD_append (l1 l2 : List Nat) (d : Nat) :
    (l1 ++ l2).getLastD d = l2.getLastD (l1.getLastD d) := by
  induction l1 generalizing d with
  | nil => rfl
  | cons a t ih =>
      rw [List.cons_append, List.getLastD_cons, ih, List.getLastD_cons]

/-- Promotion of a hit entry to most recently used preserves the
structural invariant: the five pointer writes of the hit branch move the
entry from its ring position to the position just before the root, and
the stored RESULT slot carries the entry's result.  The let chain mirrors
the hit branch of the bounded wrapper verbatim. -/
theorem inv_promote {α : Type} {N : Nat} {s : BoundedSt α} {u v : List (Entry α)}
    {e : Entry α} (hInv : Inv N s (u ++ e :: v)) :
    (let link := s.nodes e.id
     let link_prev := link.prev
     let link_next := link.next
     let result := link.result
     let n1 := updNode s.nodes link_prev { s.nodes link_prev with next := link_next }
     let n2 := updNode n1 link_next { n1 link_next with prev := link_prev }
     let last := (n2 s.rootId).prev
     let n3 := updNode n2 last { n2 last with next := e.id }
     let n4 := updNode n3 s.rootId { n3 s.rootId with prev := e.id }
     let n5 := updNode n4 e.id { n4 e.id with prev := last, next := s.rootId }
     Inv N { s with nodes := n5, hits := s.hits + 1 } (u ++ v ++ [e]) ∧
       result = some e.result) := by
  intro link link_prev link_next result n1 n2 last n3 n4 n5
  have hlp : link_prev = (s.nodes e.id).prev := rfl
  have hln : link_next = (s.nodes e.id).next := rfl
  have hresdef : result = (s.nodes e.id).result := rfl
  have hn1 : n1 = updNode s.nodes link_prev { s.nodes link_prev with next := link_next } := rfl
  have hn2 : n2 = updNode n1 link_next { n1 link_next with prev := link_prev } := rfl
  have hlast : last = (n2 s.rootId).prev := rfl
  have hn3 : n3 = updNode n2 last { n2 last with next := e.id } := rfl
  have hn4 : n4 = updNode n3 s.rootId { n3 s.rootId with prev := e.id } := rfl
  have hn5 : n5 = updNode n4 e.id { n4 e.id with prev := last, next := s.rootId } := rfl
  obtain ⟨hring, hnd, hbound, hkeyf, hresf, hdist, hperm, hsize, hfull⟩ := hInv
  have hids : entryIds (u ++ e :: v) = entryIds u ++ e.id :: entryIds v := by
    simp [entryIds]
  rw [hids] at hring hnd hbound
  -- Distinctness bookkeeping.
  have hroot_notin : s.rootId ∉ entryIds u ++ e.id :: entryIds v := (List.nodup_cons.mp hnd).1
  have hbody_nd : (entryIds u ++ e.id :: entryIds v).Nodup := (List.nodup_cons.mp hnd).2
  rw [List.nodup_append] at hbody_nd
  have hdisj := hbody_nd.2.2
  have hm_v : e.id ∉ entryIds v := (List.nodup_cons.mp hbody_nd.2.1).1
  have hm_u : e.id ∉ entryIds u := fun hmem => hdisj hmem (List.mem_cons_self _ _)
  have hm_root : e.id ≠ s.rootId := by
    intro hc
    exact hroot_notin (by rw [← hc]; exact List.mem_append_right _ (List.mem_cons_self _ _))
  have hroot_u : s.rootId ∉ entryIds u := fun h => hroot_notin (List.mem_append_left _ h)
  have hroot_v : s.rootId ∉ entryIds v :=
    fun h => hroot_notin (List.mem_append_right _ (List.mem_cons_of_mem _ h))
  -- Neighbour values of the hit link in the old ring.
  have hch' : List.Chain' (nodesRel s)
      ((s.rootId :: entryIds u) ++ (e.id :: (entryIds v ++ [s.rootId]))) := by
    have hshape : (s.rootId :: (entryIds u ++ e.id :: entryIds v)) ++ [s.rootId] =
        (s.rootId :: entryIds u) ++ (e.id :: (entryIds v ++ [s.rootId])) := by simp
    rw [← hshape]
    exact hring
  rw [List.chain'_append] at hch'
  obtain ⟨_, hch2, hj1⟩ := hch'
  rw [List.chain'_cons'] at hch2
  obtain ⟨hj2, _⟩ := hch2
  have hj1' : nodesRel s ((entryIds u).getLastD s.rootId) e.id := by
    refine hj1 _ ?_ e.id (by simp)
    rw [getLast?_cons_eq]
    simp
  have hj2' : nodesRel s e.id ((entryIds v).headD s.rootId) := by
    refine hj2 _ ?_
    rw [head?_append_singleton]
    simp
  have hjr : nodesRel s ((entryIds u ++ e.id :: entryIds v).getLastD s.rootId) s.rootId := by
    have h := hring
    rw [List.chain'_append] at h
    obtain ⟨_, _, hj⟩ := h
    refine hj _ ?_ s.rootId (by simp)
    rw [getLast?_cons_eq]
    simp
  have hlpval : link_prev = (entryIds u).getLastD s.rootId := by
    rw [hlp]
    exact hj1'.2
  have hlnval : link_next = (entryIds v).headD s.rootId := by
    rw [hln]
    exact hj2'.1
  -- The unlink writes preserve the rest of the ring.
  have hP_next : (n2 ((entryIds u).getLastD s.rootId)).next = (entryIds v).headD s.rootId := by
    rw [← hlpval, ← hlnval, hn2]
    by_cases hc : link_prev = link_next
    · rw [hc, updNode_same]
      show (n1 link_next).next = link_next
      rw [← hc, hn1, updNode_same]
      exact hc.symm
    · rw [updNode_other _ _ hc, hn1, updNode_same]
  have hQ_prev : (n2 ((entryIds v).headD s.rootId)).prev = (entryIds u).getLastD s.rootId := by
    rw [← hlpval, ← hlnval, hn2, updNode_same]
  have hframe2_next : ∀ i ∈ s.rootId :: (entryIds u ++ entryIds v),
      i ≠ (entryIds u).getLastD s.rootId → (n2 i).next = (s.nodes i).next := by
    intro i _ hne
    rw [← hlpval] at hne
    rw [hn2, upd_setPrev_next, hn1, updNode_other _ _ hne]
  have hframe2_prev : ∀ i ∈ s.rootId :: (entryIds u ++ entryIds v),
      i ≠ (entryIds v).headD s.rootId → (n2 i).prev = (s.nodes i).prev := by
    intro i _ hne
    rw [← hlnval] at hne
    rw [hn2, updNode_other _ _ hne, hn1, upd_setNext_prev]
  have hring2 := @unlink_chain α s ({ s with nodes := n2 }) (entryIds u) (entryIds v)
    e.id hring hnd rfl hP_next hQ_prev hframe2_next hframe2_prev
  -- The value of the most recently used node after the unlink.
  have hlastval : last = (entryIds u ++ entryIds v).getLastD s.rootId := by
    rw [hlast]
    cases hEq : entryIds v with
    | nil =>
        have hlnr : link_next = s.rootId := by
          rw [hlnval, hEq]
          rfl
        have h1 : (n2 s.rootId).prev = link_prev := by
          conv_lhs => rw [← hlnr]
          rw [hn2, updNode_same]
        rw [h1, List.append_nil]
        exact hlpval
    | cons q rest =>
        have hlnq : link_next = q := by rw [hlnval, hEq]; rfl
        have hqroot : q ≠ s.rootId := by
          intro hc
          rw [hEq] at hroot_v
          exact hroot_v (by rw [hc]; exact List.mem_cons_self _ _)
        have hne : s.rootId ≠ link_next := by
          rw [hlnq]
          exact fun hc => hqroot hc.symm
        rw [hn2, updNode_other _ _ hne, hn1, upd_setNext_prev, hjr.2]
        simp only [hEq, getLastD_append, List.getLastD_cons]
  -- The link writes attach the hit entry before the root.
  have hnd2 : (s.rootId :: (entryIds u ++ entryIds v)).Nodup := by
    refine List.Nodup.sublist ?_ hnd
    refine List.Sublist.cons₂ _ ?_
    exact List.Sublist.append_left (List.sublist_cons_self _ _) _
  have hm2 : e.id ∉ s.rootId :: (entryIds u ++ entryIds v) := by
    intro hc
    rcases List.mem_cons.mp hc with h | h
    · exact hm_root h
    · rcases List.mem_append.mp h with h | h
      · exact hm_u h
      · exact hm_v h
  have h5m_next : (n5 e.id).next = s.rootId := by
    rw [hn5, updNode_same]
  have h5m_prev : (n5 e.id).prev = (entryIds u ++ entryIds v).getLastD s.rootId := by
    rw [hn5, updNode_same]
    exact hlastval
  have hlast_ne_m : last ≠ e.id := by
    rw [hlastval]
    intro hc
    have hmem := getLastD_mem s.rootId (entryIds u ++ entryIds v)
    rw [hc] at hmem
    exact hm2 hmem
  have h5last_next : (n5 ((entryIds u ++ entryIds v).getLastD s.rootId)).next = e.id := by
    rw [← hlastval, hn5, updNode_other _ _ hlast_ne_m]
    by_cases hlr : last = s.rootId
    · rw [hn4, hlr, updNode_same]
      show (n3 s.rootId).next = e.id
      rw [hn3, hlr, updNode_same]
    · rw [hn4, updNode_other _ _ hlr, hn3, updNode_same]
  have h5root_prev : (n5 s.rootId).prev = e.id := by
    rw [hn5, updNode_other _ _ (Ne.symm hm_root), hn4, updNode_same]
  have h5frame_next : ∀ i ∈ s.rootId :: (entryIds u ++ entryIds v),
      i ≠ (entryIds u ++ entryIds v).getLastD s.rootId → (n5 i).next = (n2 i).next := by
    intro i hmem hne
    rw [← hlastval] at hne
    have hi_ne_m : i ≠ e.id := fun hc => hm2 (hc ▸ hmem)
    rw [hn5, updNode_other _ _ hi_ne_m, hn4, upd_setPrev_next, hn3, updNode_other _ _ hne]
  have h5frame_prev : ∀ i ∈ entryIds u ++ entryIds v, (n5 i).prev = (n2 i).prev := by
    intro i hmem
    have hi_ne_m : i ≠ e.id := by
      intro hc
      rw [hc] at hmem
      rcases List.mem_append.mp hmem with h | h
      · exact hm_u h
      · exact hm_v h
    have hi_ne_root : i ≠ s.rootId := by
      intro hc
      rw [hc] at hmem
      rcases List.mem_append.mp hmem with h | h
      · exact hroot_u h
      · exact hroot_v h
    rw [hn5, updNode_other _ _ hi_ne_m, hn4, updNode_other _ _ hi_ne_root, hn3,
      upd_setNext_prev]
  have hring5 := @link_mru_chain α ({ s with nodes := n2 })
    ({ s with nodes := n5, hits := s.hits + 1 }) (entryIds u ++ entryIds v) e.id
    hring2 hnd2 rfl h5m_next h5m_prev h5last_next h5root_prev h5frame_next h5frame_prev
  -- Permutations between the old and new entry lists.
  have hpermEs : (u ++ e :: v).Perm (u ++ (v ++ [e])) :=
    List.Perm.append_left _ ((List.perm_append_singleton _ _).symm)
  have hpermIds : (s.rootId :: (entryIds u ++ e.id :: entryIds v)).Perm
      (s.rootId :: (entryIds u ++ (entryIds v ++ [e.id]))) := by
    refine List.Perm.cons _ ?_
    exact List.Perm.append_left _ ((List.perm_append_singleton _ _).symm)
  have hidsN : entryIds (u ++ v ++ [e]) = entryIds u ++ (entryIds v ++ [e.id]) := by
    simp [entryIds]
  -- Field preservation through the five writes.
  have hkey5 : ∀ i, (n5 i).key = (s.nodes i).key := by
    intro i
    rw [hn5, upd_setPrevNext_key, hn4, upd_setPrev_key, hn3, upd_setNext_key, hn2,
      upd_setPrev_key, hn1, upd_setNext_key]
  have hres5 : ∀ i, (n5 i).result = (s.nodes i).result := by
    intro i
    rw [hn5, upd_setPrevNext_result, hn4, upd_setPrev_result, hn3, upd_setNext_result,
      hn2, upd_setPrev_result, hn1, upd_setNext_result]
  refine ⟨⟨?_, ?_, ?_, ?_, ?_, ?_, ?_, ?_, ?_⟩, ?_⟩
  · -- ring
    show List.Chain' (nodesRel { s with nodes := n5, hits := s.hits + 1 })
      ((s.rootId :: entryIds (u ++ v ++ [e])) ++ [s.rootId])
    rw [hidsN, ← List.append_assoc]
    exact hring5
  · -- nodup
    show (s.rootId :: entryIds (u ++ v ++ [e])).Nodup
    rw [hidsN]
    exact (hpermIds.nodup_iff).mp hnd
  · -- bound
    show ∀ i ∈ s.rootId :: entryIds (u ++ v ++ [e]), i < s.nextId
    rw [hidsN]
    intro i hi
    exact hbound i ((hpermIds.mem_iff).mpr hi)
  · -- node keys
    intro e' hmem
    show (n5 e'.id).key = some e'.key
    rw [hkey5]
    refine hkeyf e' ?_
    rcases List.mem_append.mp hmem with h | h
    · rcases List.mem_append.mp h with h | h
      · exact List.mem_append_left _ h
      · exact List.mem_append_right _ (List.mem_cons_of_mem _ h)
    · rcases List.mem_singleton.mp h with rfl
      exact List.mem_append_right _ (List.mem_cons_self _ _)
  · -- node results
    intro e' hmem
    show (n5 e'.id).result = some e'.result
    rw [hres5]
    refine hresf e' ?_
    rcases List.mem_append.mp hmem with h | h
    · rcases List.mem_append.mp h with h | h
      · exact List.mem_append_left _ h
      · exact List.mem_append_right _ (List.mem_cons_of_mem _ h)
    · rcases List.mem_singleton.mp h with rfl
      exact List.mem_append_right _ (List.mem_cons_self _ _)
  · -- key distinctness
    have h := (hpermEs.pairwise_iff fun h => keyEq_false_symm h).mp hdist
    show (u ++ v ++ [e]).Pairwise _
    rw [List.append_assoc]
    exact h
  · -- cache contents
    show s.cache.Perm (entryPairs (u ++ v ++ [e]))
    refine hperm.trans ?_
    have h := hpermEs.map (fun e : Entry α => (e.key, e.id))
    show (entryPairs (u ++ e :: v)).Perm _
    unfold entryPairs
    rw [List.append_assoc]
    exact h
  · -- size
    show (u ++ v ++ [e]).length ≤ N
    rw [List.append_assoc, ← hpermEs.length_eq]
    exact hsize
  · -- full flag
    show s.full = decide ((u ++ v ++ [e]).length ≥ N)
    rw [List.append_assoc, ← hpermEs.length_eq]
    exact hfull
  · -- the returned RESULT slot
    rw [hresdef]
    exact hresf e (List.mem_append_right _ (List.mem_cons_self _ _))

/-- The dictionary contents of an invariant state have pairwise distinct
keys. -/
theorem inv_keysDistinct {α : Type} {N : Nat} {s : BoundedSt α} {es : List (Entry α)}
    (hInv : Inv N s es) : KeysDistinct s.cache := by
  have hpairs : KeysDistinct (entryPairs es) := by
    show (entryPairs es).Pairwise _
    unfold entryPairs
    rw [List.pairwise_map]
    exact hInv.keys_distinct
  exact (hInv.cache_perm.pairwise_iff fun h => keyEq_false_symm h).mpr hpairs

/-- In an invariant state, looking up a key that matches an entry returns
that entry's link id. -/
theorem inv_dictGet_entry {α : Type} {N : Nat} {s : BoundedSt α} {u v : List (Entry α)}
    {e : Entry α} {key : CacheKey} (hInv : Inv N s (u ++ e :: v))
    (hk : keyEq e.key key = true) : dictGet s.cache key = some e.id := by
  have hpairs : KeysDistinct (entryPairs (u ++ e :: v)) := by
    show (entryPairs (u ++ e :: v)).Pairwise _
    unfold entryPairs
    rw [List.pairwise_map]
    exact hInv.keys_distinct
  rw [dictGet_perm hInv.cache_perm (inv_keysDistinct hInv) key]
  refine dictGet_of_mem hpairs ?_ hk
  exact List.mem_map_of_mem _ (List.mem_append_right _ (List.mem_cons_self _ _))

/-- A lookup miss only increments the miss counter and preserves the
invariant verbatim. -/
theorem inv_lookup_miss {α : Type} {N : Nat} {s : BoundedSt α} {es : List (Entry α)}
    {key : CacheKey} (hInv : Inv N s es) (hget : dictGet s.cache key = none) :
    Bounded.wrapperLookup s key = (LookupRes.miss, { s with misses := s.misses + 1 }) ∧
    Inv N { s with misses := s.misses + 1 } es := by
  constructor
  · simp [Bounded.wrapperLookup, hget]
  · obtain ⟨h1, h2, h3, h4, h5, h6, h7, h8, h9⟩ := hInv
    exact ⟨h1, h2, h3, h4, h5, h6, h7, h8, h9⟩

/-- A lookup hit returns the entry's stored result, increments only the
hit counter, touches neither the dictionary nor the counters and flags,
and re-establishes the invariant with the hit entry moved to the most
recently used position. -/
theorem inv_lookup_hit {α : Type} {N : Nat} {s : BoundedSt α} {u v : List (Entry α)}
    {e : Entry α} {key : CacheKey} (hInv : Inv N s (u ++ e :: v))
    (hk : keyEq e.key key = true) :
    (Bounded.wrapperLookup s key).1 = LookupRes.hit (some e.result) ∧
    Inv N (Bounded.wrapperLookup s key).2 (u ++ v ++ [e]) ∧
    (Bounded.wrapperLookup s key).2.cache = s.cache ∧
    (Bounded.wrapperLookup s key).2.hits = s.hits + 1 ∧
    (Bounded.wrapperLookup s key).2.misses = s.misses ∧
    (Bounded.wrapperLookup s key).2.full = s.full ∧
    (Bounded.wrapperLookup s key).2.rootId = s.rootId ∧
    (Bounded.wrapperLookup s key).2.nextId = s.nextId := by
  have hget : dictGet s.cache key = some e.id := inv_dictGet_entry hInv hk
  have hred := inv_promote hInv
  refine ⟨?_, ?_, ?_, ?_, ?_, ?_, ?_, ?_⟩
  · simp only [Bounded.wrapperLookup, hget]
    rw [hred.2]
  · simp only [Bounded.wrapperLookup, hget]
    exact hred.1
  · simp only [Bounded.wrapperLookup, hget]
  · simp only [Bounded.wrapperLookup, hget]
  · simp only [Bounded.wrapperLookup, hget]
  · simp only [Bounded.wrapperLookup, hget]
  · simp only [Bounded.wrapperLookup, hget]
  · simp only [Bounded.wrapperLookup, hget]

/-- Inserting a fresh key into a non-full cache preserves the structural
invariant: the allocated link becomes the most recently used entry.  The
let chain mirrors the not-full store branch of the bounded wrapper
verbatim. -/
theorem inv_insert {α : Type} {N : Nat} {s : BoundedSt α} {es : List (Entry α)}
    {key : CacheKey} {result : α} (hInv : Inv N s es)
    (habs : ∀ p ∈ s.cache, keyEq p.1 key = false) (hfull : s.full = false) :
    (let last := (s.nodes s.rootId).prev
     let linkId := s.nextId
     let n1 := updNode s.nodes linkId
       { prev := last, next := s.rootId, key := some key, result := some result }
     let n2 := updNode n1 last { n1 last with next := linkId }
     let n3 := updNode n2 s.rootId { n2 s.rootId with prev := linkId }
     let cache1 := dictSet s.cache key linkId
     Inv N { s with nodes := n3, nextId := s.nextId + 1, cache := cache1,
                    full := decide (cache1.length ≥ N) }
       (es ++ [{ id := s.nextId, key := key, result := result }]) ∧
     cache1 = s.cache ++ [(key, s.nextId)]) := by
  intro last linkId n1 n2 n3 cache1
  have hlastdef : last = (s.nodes s.rootId).prev := rfl
  have hn1 : n1 = updNode s.nodes linkId
      { prev := last, next := s.rootId, key := some key, result := some result } := rfl
  have hn2 : n2 = updNode n1 last { n1 last with next := linkId } := rfl
  have hn3 : n3 = updNode n2 s.rootId { n2 s.rootId with prev := linkId } := rfl
  have hc1 : cache1 = dictSet s.cache key linkId := rfl
  obtain ⟨hring, hnd, hbound, hkeyf, hresf, hdist, hperm, hsize, hfullok⟩ := hInv
  -- Freshness of the allocated id.
  have hfresh : s.nextId ∉ s.rootId :: entryIds es := by
    intro hmem
    exact absurd (hbound _ hmem) (lt_irrefl _)
  have hm_root : s.nextId ≠ s.rootId := fun hc => hfresh (by rw [hc]; exact List.mem_cons_self _ _)
  have hm_ids : s.nextId ∉ entryIds es := fun hc => hfresh (List.mem_cons_of_mem _ hc)
  -- The previous most recently used node.
  have hjr : nodesRel s ((entryIds es).getLastD s.rootId) s.rootId := by
    have h := hring
    rw [List.chain'_append] at h
    obtain ⟨_, _, hj⟩ := h
    refine hj _ ?_ s.rootId (by simp)
    rw [getLast?_cons_eq]
    simp
  have hlastval : last = (entryIds es).getLastD s.rootId := by
    rw [hlastdef]
    exact hjr.2
  have hlast_mem : last ∈ s.rootId :: entryIds es := by
    rw [hlastval]
    exact getLastD_mem _ _
  have hlast_ne_m : last ≠ s.nextId := fun hc => hfresh (hc ▸ hlast_mem)
  -- Pointer facts of the new heap.
  have h3m_next : (n3 linkId).next = s.rootId := by
    rw [hn3, updNode_other _ _ hm_root, hn2, updNode_other _ _ (Ne.symm hlast_ne_m), hn1,
      updNode_same]
  have h3m_prev : (n3 linkId).prev = (entryIds es).getLastD s.rootId := by
    rw [hn3, updNode_other _ _ hm_root, hn2, updNode_other _ _ (Ne.symm hlast_ne_m), hn1,
      updNode_same]
    exact hlastval
  have h3last_next : (n3 ((entryIds es).getLastD s.rootId)).next = linkId := by
    rw [← hlastval]
    by_cases hcase : last = s.rootId
    · rw [hn3, hcase, updNode_same]
      show (n2 s.rootId).next = linkId
      rw [hn2, ← hcase, updNode_same]
    · rw [hn3, updNode_other _ _ hcase, hn2, updNode_same]
  have h3root_prev : (n3 s.rootId).prev = linkId := by
    rw [hn3, updNode_same]
  have h3frame_next : ∀ i ∈ s.rootId :: entryIds es,
      i ≠ (entryIds es).getLastD s.rootId → (n3 i).next = (s.nodes i).next := by
    intro i hmem hne
    rw [← hlastval] at hne
    have hi_ne_m : i ≠ linkId := fun hc => hfresh ((show i = s.nextId from hc) ▸ hmem)
    rw [hn3, upd_setPrev_next, hn2, updNode_other _ _ hne, hn1, updNode_other _ _ hi_ne_m]
  have h3frame_prev : ∀ i ∈ entryIds es, (n3 i).prev = (s.nodes i).prev := by
    intro i hmem
    have hi_ne_m : i ≠ linkId := fun hc => hm_ids ((show i = s.nextId from hc) ▸ hmem)
    have hi_ne_root : i ≠ s.rootId := by
      intro hc
      rw [hc] at hmem
      exact (List.nodup_cons.mp hnd).1 hmem
    rw [hn3, updNode_other _ _ hi_ne_root, hn2, upd_setNext_prev, hn1,
      updNode_other _ _ hi_ne_m]
  have hringN := @link_mru_chain α s
    ({ s with nodes := n3, nextId := s.nextId + 1, cache := cache1,
              full := decide (cache1.length ≥ N) }) (entryIds es) s.nextId
    hring hnd rfl h3m_next h3m_prev h3last_next h3root_prev h3frame_next h3frame_prev
  -- Key facts about the entries.
  have hentry_keys : ∀ e' ∈ es, keyEq e'.key key = false := by
    intro e' hmem
    refine habs (e'.key, e'.id) ?_
    refine (hperm.mem_iff).mpr ?_
    exact List.mem_map_of_mem _ hmem
  have hc1app : cache1 = s.cache ++ [(key, s.nextId)] := by
    rw [hc1]
    exact dictSet_of_absent habs _
  have hsizelt : es.length < N := by
    have h := hfullok
    rw [hfull] at h
    have := of_decide_eq_false h.symm
    omega
  have hlen1 : cache1.length = es.length + 1 := by
    rw [hc1app, List.length_append, hperm.length_eq]
    simp [entryPairs]
  have hidsN : entryIds (es ++ [{ id := s.nextId, key := key, result := result }]) =
      entryIds es ++ [s.nextId] := by
    simp [entryIds]
  refine ⟨⟨?_, ?_, ?_, ?_, ?_, ?_, ?_, ?_, ?_⟩, hc1app⟩
  · -- ring
    show List.Chain' _ ((s.rootId :: entryIds (es ++ [_])) ++ [s.rootId])
    rw [hidsN]
    exact hringN
  · -- nodup
    show (s.rootId :: entryIds (es ++ [_])).Nodup
    rw [hidsN, List.nodup_cons]
    constructor
    · intro hc
      rcases List.mem_append.mp hc with h | h
      · exact (List.nodup_cons.mp hnd).1 h
      · exact hm_root (List.mem_singleton.mp h).symm
    · rw [List.nodup_append]
      refine ⟨(List.nodup_cons.mp hnd).2, List.nodup_singleton _, ?_⟩
      intro a ha hb
      rw [List.mem_singleton.mp hb] at ha
      exact hm_ids ha
  · -- bound
    show ∀ i ∈ s.rootId :: entryIds (es ++ [_]), i < s.nextId + 1
    rw [hidsN]
    intro i hi
    rcases List.mem_cons.mp hi with h | h
    · have := hbound i (by rw [h]; exact List.mem_cons_self _ _)
      omega
    · rcases List.mem_append.mp h with h | h
      · have := hbound i (List.mem_cons_of_mem _ h)
        omega
      · rw [List.mem_singleton.mp h]
        omega
  · -- node keys
    intro e' hmem
    rcases List.mem_append.mp hmem with h | h
    · show (n3 e'.id).key = some e'.key
      have hi_ne_m : e'.id ≠ linkId :=
        fun hc => hm_ids ((show e'.id = s.nextId from hc) ▸ List.mem_map_of_mem _ h)
      rw [hn3, upd_setPrev_key, hn2, upd_setNext_key, hn1, updNode_other _ _ hi_ne_m]
      exact hkeyf e' h
    · rcases List.mem_singleton.mp h with rfl
      show (n3 s.nextId).key = some key
      rw [hn3, upd_setPrev_key, hn2, upd_setNext_key, hn1, updNode_same]
  · -- node results
    intro e' hmem
    rcases List.mem_append.mp hmem with h | h
    · show (n3 e'.id).result = some e'.result
      have hi_ne_m : e'.id ≠ linkId :=
        fun hc => hm_ids ((show e'.id = s.nextId from hc) ▸ List.mem_map_of_mem _ h)
      rw [hn3, upd_setPrev_result, hn2, upd_setNext_result, hn1, updNode_other _ _ hi_ne_m]
      exact hresf e' h
    · rcases List.mem_singleton.mp h with rfl
      show (n3 s.nextId).result = some result
      rw [hn3, upd_setPrev_result, hn2, upd_setNext_result, hn1, updNode_same]
  · -- key distinctness
    rw [List.pairwise_append]
    refine ⟨hdist, List.pairwise_singleton _ _, ?_⟩
    intro a ha b hb
    rw [List.mem_singleton.mp hb]
    exact hentry_keys a ha
  · -- cache contents
    show cache1.Perm (entryPairs (es ++ [_]))
    rw [hc1app]
    have h1 : (entryPairs (es ++ [{ id := s.nextId, key := key, result := result }])) =
        entryPairs es ++ [(key, s.nextId)] := by
      simp [entryPairs]
    rw [h1]
    exact hperm.append_right _
  · -- size
    simp only [List.length_append, List.length_singleton]
    omega
  · -- full flag
    show decide (cache1.length ≥ N) = decide ((es ++ [_]).length ≥ N)
    rw [hlen1]
    simp

/-- Evicting the least recently used entry on a full cache preserves the
structural invariant: the root is overwritten in place with the new key
and result, its successor (the oldest link) is emptied and becomes the
new root, and the dict swaps the evicted key for the new one.  The let
chain mirrors the full store branch of the bounded wrapper verbatim. -/
theorem inv_evict {α : Type} {N : Nat} {s : BoundedSt α} {e0 : Entry α}
    {rest : List (Entry α)} {key : CacheKey} {result : α}
    (hInv : Inv N s (e0 :: rest))
    (habs : ∀ p ∈ s.cache, keyEq p.1 key = false) (hfull : s.full = true) :
    (let oldroot := s.rootId
     let n1 := updNode s.nodes oldroot
       { s.nodes oldroot with key := some key, result := some result }
     let newrootId := (n1 oldroot).next
     let oldkey := (n1 newrootId).key
     let n2 := updNode n1 newrootId { n1 newrootId with key := none, result := none }
     let cache1 :=
       match oldkey with
       | some k => dictDel s.cache k
       | none => s.cache
     Inv N { s with nodes := n2, rootId := newrootId,
                    cache := dictSet cache1 key oldroot }
       (rest ++ [{ id := s.rootId, key := key, result := result }])) := by
  intro oldroot n1 newrootId oldkey n2 cache1
  have hc1 : cache1 =
      match oldkey with
      | some k => dictDel s.cache k
      | none => s.cache := rfl
  have hor : oldroot = s.rootId := rfl
  have hn1 : n1 = updNode s.nodes oldroot
      { s.nodes oldroot with key := some key, result := some result } := rfl
  have hnr : newrootId = (n1 oldroot).next := rfl
  have hok : oldkey = (n1 newrootId).key := rfl
  have hn2 : n2 = updNode n1 newrootId { n1 newrootId with key := none, result := none } := rfl
  obtain ⟨hring, hnd, hbound, hkeyf, hresf, hdist, hperm, hsize, hfullok⟩ := hInv
  have hids : entryIds (e0 :: rest) = e0.id :: entryIds rest := rfl
  rw [hids] at hring hnd hbound
  have hroot_notin : s.rootId ∉ e0.id :: entryIds rest := (List.nodup_cons.mp hnd).1
  have he0_root : e0.id ≠ s.rootId := fun hc =>
    hroot_notin (by rw [← hc]; exact List.mem_cons_self _ _)
  have he0_rest : e0.id ∉ entryIds rest := (List.nodup_cons.mp (List.nodup_cons.mp hnd).2).1
  have hroot_rest : s.rootId ∉ entryIds rest :=
    fun hc => hroot_notin (List.mem_cons_of_mem _ hc)
  -- The successor of the root is the oldest link.
  have hj0 : nodesRel s s.rootId ((e0.id :: entryIds rest).headD s.rootId) := by
    have h : List.Chain' (nodesRel s)
        (s.rootId :: ((e0.id :: entryIds rest) ++ [s.rootId])) := by
      have hshape : (s.rootId :: (e0.id :: entryIds rest)) ++ [s.rootId] =
          s.rootId :: ((e0.id :: entryIds rest) ++ [s.rootId]) := by simp
      rw [← hshape]
      exact hring
    rw [List.chain'_cons'] at h
    refine h.1 _ ?_
    rw [head?_append_singleton]
    simp
  have hnrval : newrootId = e0.id := by
    rw [hnr, hn1, hor, updNode_same]
    show (s.nodes s.rootId).next = e0.id
    exact hj0.1
  have hokval : oldkey = some e0.key := by
    rw [hok, hnrval, hn1, hor, updNode_other _ _ he0_root]
    exact hkeyf e0 (List.mem_cons_self _ _)
  have hc1val : cache1 = dictDel s.cache e0.key := by
    rw [hc1, hokval]
  -- The two in-place writes do not move any pointer.
  have hnext2 : ∀ i, (n2 i).next = (s.nodes i).next := by
    intro i
    rw [hn2, upd_setKeyResult_next, hn1, hor, upd_setKeyResult_next]
  have hprev2 : ∀ i, (n2 i).prev = (s.nodes i).prev := by
    intro i
    rw [hn2, upd_setKeyResult_prev, hn1, hor, upd_setKeyResult_prev]
  -- The ring merely rotates.
  have hchain2 : List.Chain' (nodesRel ({ s with nodes := n2 }))
      ((s.rootId :: (e0.id :: entryIds rest)) ++ [s.rootId]) := by
    refine chain_transfer hring (fun i _ => hnext2 i) (fun i _ => hprev2 i)
  have hringN : List.Chain' (nodesRel ({ s with nodes := n2 }))
      ((e0.id :: (entryIds rest ++ [s.rootId])) ++ [e0.id]) := by
    have h := chain_rotate hchain2
    have hshape : (e0.id :: (entryIds rest ++ [s.rootId])) ++ [e0.id] =
        (e0.id :: entryIds rest) ++ [s.rootId, e0.id] := by simp
    rw [hshape]
    exact h
  -- Key facts about the entries.
  have hentry_keys : ∀ e' ∈ e0 :: rest, keyEq e'.key key = false := by
    intro e' hmem
    refine habs (e'.key, e'.id) ?_
    refine (hperm.mem_iff).mpr ?_
    exact List.mem_map_of_mem _ hmem
  have hrest_e0 : ∀ e' ∈ rest, keyEq e'.key e0.key = false := by
    intro e' hmem
    exact keyEq_false_symm ((List.pairwise_cons.mp hdist).1 e' hmem)
  have hkd : KeysDistinct s.cache := by
    have hpairs : KeysDistinct (entryPairs (e0 :: rest)) := by
      show (entryPairs (e0 :: rest)).Pairwise _
      unfold entryPairs
      rw [List.pairwise_map]
      exact hdist
    exact (hperm.pairwise_iff fun h => keyEq_false_symm h).mpr hpairs
  -- The dict after deletion and insertion.
  have hc1perm : cache1.Perm (entryPairs rest) := by
    rw [hc1val, dictDel_eq_filter hkd]
    have h1 := hperm.filter (fun p => !keyEq p.1 e0.key)
    refine h1.trans ?_
    have h2 : (entryPairs (e0 :: rest)).filter (fun p => !keyEq p.1 e0.key) =
        entryPairs rest := by
      show ((e0.key, e0.id) :: entryPairs rest).filter _ = _
      rw [List.filter_cons]
      simp only [keyEq_refl, Bool.not_true]
      rw [if_neg (by simp)]
      refine List.filter_eq_self.mpr ?_
      intro p hp
      have : ∃ e' ∈ rest, (e'.key, e'.id) = p := by
        rcases List.mem_map.mp hp with ⟨e', hmem, hEq⟩
        exact ⟨e', hmem, hEq⟩
      rcases this with ⟨e', hmem, hEq⟩
      rw [← hEq]
      simp [hrest_e0 e' hmem]
    rw [h2]
  have habs1 : ∀ p ∈ cache1, keyEq p.1 key = false := by
    intro p hp
    rw [hc1val] at hp
    exact habs p (mem_dictDel hp)
  have hsetapp : dictSet cache1 key oldroot = cache1 ++ [(key, s.rootId)] := by
    rw [hor]
    exact dictSet_of_absent habs1 _
  have hidsN : entryIds (rest ++ [{ id := s.rootId, key := key, result := result }]) =
      entryIds rest ++ [s.rootId] := by
    simp [entryIds]
  have hlen : (rest ++ [({ id := s.rootId, key := key, result := result } : Entry α)]).length
      = (e0 :: rest).length := by
    simp
  refine ⟨?_, ?_, ?_, ?_, ?_, ?_, ?_, ?_, ?_⟩
  · -- ring
    show List.Chain' _ ((newrootId :: entryIds (rest ++ [_])) ++ [newrootId])
    rw [hidsN, hnrval]
    exact hringN
  · -- nodup
    show (newrootId :: entryIds (rest ++ [_])).Nodup
    rw [hidsN, hnrval]
    have hpermN : (s.rootId :: (e0.id :: entryIds rest)).Perm
        (e0.id :: (entryIds rest ++ [s.rootId])) := by
      refine List.Perm.trans (List.Perm.swap e0.id s.rootId (entryIds rest)) ?_
      exact List.Perm.cons _ ((List.perm_append_singleton _ _).symm)
    exact hpermN.nodup_iff.mp hnd
  · -- bound
    show ∀ i ∈ newrootId :: entryIds (rest ++ [_]), i < s.nextId
    rw [hidsN, hnrval]
    intro i hi
    rcases List.mem_cons.mp hi with h | h
    · exact hbound i (by rw [h]; exact List.mem_cons_of_mem _ (List.mem_cons_self _ _))
    · rcases List.mem_append.mp h with h | h
      · exact hbound i (List.mem_cons_of_mem _ (List.mem_cons_of_mem _ h))
      · rw [List.mem_singleton.mp h]
        exact hbound _ (List.mem_cons_self _ _)
  · -- node keys
    intro e' hmem
    rcases List.mem_append.mp hmem with h | h
    · show (n2 e'.id).key = some e'.key
      have hne_root : e'.id ≠ s.rootId :=
        fun hc => hroot_rest ((show e'.id = s.rootId from hc) ▸ List.mem_map_of_mem _ h)
      have hne_e0 : e'.id ≠ e0.id :=
        fun hc => he0_rest ((show e'.id = e0.id from hc) ▸ List.mem_map_of_mem _ h)
      have hne_nr : e'.id ≠ newrootId := by
        rw [hnrval]
        exact hne_e0
      rw [hn2, updNode_other _ _ hne_nr, hn1, hor, updNode_other _ _ hne_root]
      exact hkeyf e' (List.mem_cons_of_mem _ h)
    · rcases List.mem_singleton.mp h with rfl
      show (n2 s.rootId).key = some key
      have hne_nr : s.rootId ≠ newrootId := by
        rw [hnrval]
        exact Ne.symm he0_root
      rw [hn2, updNode_other _ _ hne_nr, hn1, hor, updNode_same]
  · -- node results
    intro e' hmem
    rcases List.mem_append.mp hmem with h | h
    · show (n2 e'.id).result = some e'.result
      have hne_root : e'.id ≠ s.rootId :=
        fun hc => hroot_rest ((show e'.id = s.rootId from hc) ▸ List.mem_map_of_mem _ h)
      have hne_e0 : e'.id ≠ e0.id :=
        fun hc => he0_rest ((show e'.id = e0.id from hc) ▸ List.mem_map_of_mem _ h)
      have hne_nr : e'.id ≠ newrootId := by
        rw [hnrval]
        exact hne_e0
      rw [hn2, updNode_other _ _ hne_nr, hn1, hor, updNode_other _ _ hne_root]
      exact hresf e' (List.mem_cons_of_mem _ h)
    · rcases List.mem_singleton.mp h with rfl
      show (n2 s.rootId).result = some result
      have hne_nr : s.rootId ≠ newrootId := by
        rw [hnrval]
        exact Ne.symm he0_root
      rw [hn2, updNode_other _ _ hne_nr, hn1, hor, updNode_same]
  · -- key distinctness
    rw [List.pairwise_append]
    refine ⟨(List.pairwise_cons.mp hdist).2, List.pairwise_singleton _ _, ?_⟩
    intro a ha b hb
    rw [List.mem_singleton.mp hb]
    exact hentry_keys a (List.mem_cons_of_mem _ ha)
  · -- cache contents
    show (dictSet cache1 key oldroot).Perm (entryPairs (rest ++ [_]))
    rw [hsetapp]
    have h1 : entryPairs (rest ++ [{ id := s.rootId, key := key, result := result }]) =
        entryPairs rest ++ [(key, s.rootId)] := by
      simp [entryPairs]
    rw [h1]
    exact hc1perm.append_right _
  · -- size
    show (rest ++ [_]).length ≤ N
    rw [hlen]
    exact hsize
  · -- full flag
    show s.full = decide ((rest ++ [_]).length ≥ N)
    rw [hlen]
    exact hfullok

/-- The post-computation store step preserves the invariant for some
entry list, whenever the key is absent and the capacity is positive. -/
theorem inv_store {α : Type} {N : Nat} {s : BoundedSt α} {es : List (Entry α)}
    {key : CacheKey} {result : α} (hN : 0 < N) (hInv : Inv N s es)
    (hget : dictGet s.cache key = none) :
    ∃ es', Inv N (Bounded.wrapperStore N s key result) es' := by
  have habs : ∀ p ∈ s.cache, keyEq p.1 key = false := dictGet_eq_none_iff.mp hget
  by_cases hfull : s.full = true
  · cases es with
    | nil =>
        exfalso
        have h := hInv.full_ok
        rw [hfull] at h
        have h2 := of_decide_eq_true h.symm
        simp only [List.length_nil] at h2
        omega
    | cons e0 rest =>
        have hred := @inv_evict α N s e0 rest key result hInv habs hfull
        refine ⟨rest ++ [{ id := s.rootId, key := key, result := result }], ?_⟩
        simp only [Bounded.wrapperStore, hget, Option.isSome_none, Bool.false_eq_true,
          if_false]
        rw [if_pos hfull]
        exact hred
  · have hfull' : s.full = false := by
      cases h : s.full
      · rfl
      · exact absurd h hfull
    have hred := @inv_insert α N s es key result hInv habs hfull'
    refine ⟨es ++ [{ id := s.nextId, key := key, result := result }], ?_⟩
    simp only [Bounded.wrapperStore, hget, Option.isSome_none, Bool.false_eq_true,
      if_false]
    rw [if_neg (by simp [hfull'])]
    exact hred.1

/-- Every state reachable by complete calls and clears satisfies the
structural invariant for some entry list, as long as the capacity is
positive. -/
theorem reachable_inv {ε α : Type} {N : Nat} {typed : Bool} {s : BoundedSt α}
    (hN : 0 < N) (hr : Bounded.Reachable ε α N typed s) : ∃ es, Inv N s es := by
  induction hr with
  | start => exact ⟨[], inv_start hN⟩
  | @callStep s' args comp hr ih =>
      obtain ⟨es, hInv⟩ := ih
      cases hget : dictGet s'.cache (make_key args typed) with
      | none =>
          have hmiss := inv_lookup_miss hInv hget
          simp only [Bounded.wrapper, hmiss.1]
          cases comp with
          | error e =>
              simp only [Bounded.wrapperResume]
              exact ⟨es, hmiss.2⟩
          | ok r =>
              simp only [Bounded.wrapperResume]
              exact inv_store hN hmiss.2 hget
      | some linkId =>
          obtain ⟨k', hkmem, hkeq⟩ := dictGet_mem hget
          have hmem2 : (k', linkId) ∈ entryPairs es := (hInv.cache_perm.mem_iff).mp hkmem
          rcases List.mem_map.mp hmem2 with ⟨e, hemem, hEq⟩
          have hkeyeq : keyEq e.key (make_key args typed) = true := by
            have h : e.key = k' := congrArg Prod.fst hEq
            rw [h]
            exact hkeq
          rcases List.append_of_mem hemem with ⟨u, v, rfl⟩
          have hhit := inv_lookup_hit hInv hkeyeq
          cases hp : Bounded.wrapperLookup s' (make_key args typed) with
          | mk fst snd =>
              rw [hp] at hhit
              have hfst : fst = LookupRes.hit (some e.result) := hhit.1
              subst hfst
              refine ⟨u ++ v ++ [e], ?_⟩
              simp only [Bounded.wrapper, hp]
              exact hhit.2.1
  | @clearStep s' hr ih =>
      obtain ⟨es, hInv⟩ := ih
      exact ⟨[], inv_clear hN hInv⟩

/-- Running a concatenation of call sequences runs them one after the
other. -/
theorem run_append {ε α : Type} (maxsize : Nat) (typed : Bool)
    (l1 l2 : List (List PyVal × Except ε α)) (s : BoundedSt α) :
    Bounded.run maxsize typed (l1 ++ l2) s =
      ((Bounded.run maxsize typed l1 s).1 ++
        (Bounded.run maxsize typed l2 (Bounded.run maxsize typed l1 s).2).1,
       (Bounded.run maxsize typed l2 (Bounded.run maxsize typed l1 s).2).2) := by
  induction l1 generalizing s with
  | nil => simp [Bounded.run]
  | cons c rest ih =>
      obtain ⟨args, comp⟩ := c
      simp only [List.cons_append, Bounded.run, List.append_eq, ih]

/-- The store step on a miss with a non-full cache appends exactly the
freshly allocated entry. -/
theorem inv_store_insert_exact {α : Type} {N : Nat} {s : BoundedSt α}
    {es : List (Entry α)} {key : CacheKey} {result : α} (hInv : Inv N s es)
    (hget : dictGet s.cache key = none) (hfull : s.full = false) :
    Inv N (Bounded.wrapperStore N s key result)
      (es ++ [{ id := s.nextId, key := key, result := result }]) := by
  have habs : ∀ p ∈ s.cache, keyEq p.1 key = false := dictGet_eq_none_iff.mp hget
  have hred := @inv_insert α N s es key result hInv habs hfull
  simp only [Bounded.wrapperStore, hget, Option.isSome_none, Bool.false_eq_true, if_false]
  rw [if_neg (by simp [hfull])]
  exact hred.1

/-- The store step on a miss with a full cache drops the least recently
used entry and appends the reused root as the new entry. -/
theorem inv_store_evict_exact {α : Type} {N : Nat} {s : BoundedSt α} {e0 : Entry α}
    {rest : List (Entry α)} {key : CacheKey} {result : α} (hInv : Inv N s (e0 :: rest))
    (hget : dictGet s.cache key = none) (hfull : s.full = true) :
    Inv N (Bounded.wrapperStore N s key result)
      (rest ++ [{ id := s.rootId, key := key, result := result }]) := by
  have habs : ∀ p ∈ s.cache, keyEq p.1 key = false := dictGet_eq_none_iff.mp hget
  have hred := @inv_evict α N s e0 rest key result hInv habs hfull
  simp only [Bounded.wrapperStore, hget, Option.isSome_none, Bool.false_eq_true, if_false]
  rw [if_pos hfull]
  exact hred

/-- In an invariant state, a key that is Python-unequal to every entry
key is absent from the dict. -/
theorem inv_dictGet_none {α : Type} {N : Nat} {s : BoundedSt α} {es : List (Entry α)}
    (hInv : Inv N s es) {key : CacheKey}
    (hfresh : ∀ e ∈ es, keyEq e.key key = false) :
    dictGet s.cache key = none := by
  refine dictGet_eq_none_iff.mpr ?_
  intro p hp
  have hp2 : p ∈ entryPairs es := (hInv.cache_perm.mem_iff).mp hp
  rcases List.mem_map.mp hp2 with ⟨e, hmem, hEq⟩
  rw [← hEq]
  exact hfresh e hmem

/-- Running a sequence of calls whose keys are fresh, pairwise distinct
and all successful, on a cache with enough room, appends one entry per
call in order. -/
theorem fresh_run {ε α : Type} {N : Nat} {typed : Bool} :
    ∀ (calls : List (List PyVal × Except ε α)) (s : BoundedSt α) (es : List (Entry α)),
      Inv N s es →
      (∀ c ∈ calls, ∃ r : α, c.2 = Except.ok r) →
      (calls.map (fun c => make_key c.1 typed)).Pairwise (fun a b => keyEq a b = false) →
      (∀ k ∈ calls.map (fun c => make_key c.1 typed), ∀ e ∈ es, keyEq e.key k = false) →
      es.length + calls.length ≤ N →
      ∃ es', Inv N (Bounded.run N typed calls s).2 es' ∧
        es'.map Entry.key = es.map Entry.key ++ calls.map (fun c => make_key c.1 typed) := by
  intro calls
  induction calls with
  | nil =>
      intro s es hInv _ _ _ _
      exact ⟨es, hInv, by simp [Bounded.run]⟩
  | cons c rest ih =>
      intro s es hInv hok hdist hfresh hroom
      obtain ⟨args, comp⟩ := c
      obtain ⟨r, hr⟩ := hok (args, comp) (List.mem_cons_self _ _)
      simp only at hr
      subst hr
      have hkfresh : ∀ e ∈ es, keyEq e.key (make_key args typed) = false := by
        intro e hmem
        exact hfresh _ (by simp) e hmem
      have hget : dictGet s.cache (make_key args typed) = none :=
        inv_dictGet_none hInv hkfresh
      have hmiss := inv_lookup_miss hInv hget
      have hfull : ({ s with misses := s.misses + 1 } : BoundedSt α).full = false := by
        show s.full = false
        rw [hInv.full_ok]
        have : es.length < N := by
          simp only [List.length_cons] at hroom
          omega
        simp
        omega
      have hget1 : dictGet ({ s with misses := s.misses + 1 } : BoundedSt α).cache
          (make_key args typed) = none := hget
      have hstore := @inv_store_insert_exact α N ({ s with misses := s.misses + 1 }) es
        (make_key args typed) r hmiss.2 hget1 hfull
      have hstep : (Bounded.run N typed ((args, Except.ok r) :: rest) s).2 =
          (Bounded.run N typed rest
            (Bounded.wrapper N typed (Except.ok r : Except ε α) s args).2).2 := rfl
      have hw2 : (Bounded.wrapper N typed (Except.ok r : Except ε α) s args).2 =
          Bounded.wrapperStore N ({ s with misses := s.misses + 1 }) (make_key args typed) r := by
        simp only [Bounded.wrapper, hmiss.1, Bounded.wrapperResume]
      rw [hstep, hw2]
      have hresih := ih (Bounded.wrapperStore N ({ s with misses := s.misses + 1 })
          (make_key args typed) r)
        (es ++ [{ id := ({ s with misses := s.misses + 1 } : BoundedSt α).nextId,
                  key := make_key args typed, result := r }])
        hstore
        (fun c hc => hok c (List.mem_cons_of_mem _ hc))
        ((List.pairwise_cons.mp hdist).2)
        ?_ ?_
      · obtain ⟨es', hInv', hkeys⟩ := hresih
        refine ⟨es', hInv', ?_⟩
        rw [hkeys]
        simp
      · intro k hk e hmem
        rcases List.mem_append.mp hmem with h | h
        · exact hfresh k (List.mem_cons_of_mem _ hk) e h
        · rcases List.mem_singleton.mp h with rfl
          show keyEq (make_key args typed) k = false
          exact (List.pairwise_cons.mp hdist).1 k hk
      · simp only [List.length_append, List.length_singleton, List.length_cons,
          List.length_nil] at hroom ⊢
        omega

/-- Claim C4: in every bounded-mode state reachable by any sequence of
calls and clears, the keys of the nodes reached by walking the circular
list from the root are, as a multiset, exactly the keys of the cache
dictionary, and the walk length equals the dictionary size. -/
theorem claim_C4 (ε α : Type) (N : Nat) (typed : Bool) (s : BoundedSt α)
    (hN : 0 < N) (hr : Bounded.Reachable ε α N typed s) :
    ((walkIds s (s.cache.length + 1) s.rootId).map (fun i => (s.nodes i).key)).Perm
      (s.cache.map (fun p => some p.1)) ∧
    (walkIds s (s.cache.length + 1) s.rootId).length = s.cache.length := by
  obtain ⟨es, hInv⟩ := reachable_inv hN hr
  have hlen_cache : s.cache.length = es.length := by
    rw [hInv.cache_perm.length_eq]
    simp [entryPairs]
  have hnotin : s.rootId ∉ entryIds es := (List.nodup_cons.mp hInv.nodup).1
  have hwalk : walkIds s (s.cache.length + 1) s.rootId = entryIds es := by
    refine walk_of_chain hInv.ring hnotin ?_
    have h : (entryIds es).length = es.length := by simp [entryIds]
    omega
  constructor
  · rw [hwalk]
    have hmap : (entryIds es).map (fun i => (s.nodes i).key) =
        es.map (fun e => some e.key) := by
      unfold entryIds
      rw [List.map_map]
      refine List.map_congr_left ?_
      intro e hmem
      exact hInv.node_key e hmem
    rw [hmap]
    have h2 := hInv.cache_perm.map (fun p : CacheKey × Nat => some p.1)
    have h3 : (entryPairs es).map (fun p : CacheKey × Nat => some p.1) =
        es.map (fun e => some e.key) := by
      simp [entryPairs]
    rw [h3] at h2
    exact h2.symm
  · rw [hwalk]
    simp [entryIds, hlen_cache]

/-- Witness for claim C4 at a concrete reachable state: after two stored
calls with capacity 2, the walk from the root and the dictionary agree. -/
theorem claim_C4_witness :
    0 < 2 ∧
    Bounded.Reachable Unit Int 2 false
      (Bounded.wrapper 2 false (Except.ok 5 : Except Unit Int)
        (Bounded.wrapper 2 false (Except.ok 4 : Except Unit Int) (boundedInit Int)
          [pyInt 1]).2 [pyInt 2]).2 ∧
    (((walkIds
        (Bounded.wrapper 2 false (Except.ok 5 : Except Unit Int)
          (Bounded.wrapper 2 false (Except.ok 4 : Except Unit Int) (boundedInit Int)
            [pyInt 1]).2 [pyInt 2]).2
        ((Bounded.wrapper 2 false (Except.ok 5 : Except Unit Int)
          (Bounded.wrapper 2 false (Except.ok 4 : Except Unit Int) (boundedInit Int)
            [pyInt 1]).2 [pyInt 2]).2.cache.length + 1)
        (Bounded.wrapper 2 false (Except.ok 5 : Except Unit Int)
          (Bounded.wrapper 2 false (Except.ok 4 : Except Unit Int) (boundedInit Int)
            [pyInt 1]).2 [pyInt 2]).2.rootId).map
        (fun i => ((Bounded.wrapper 2 false (Except.ok 5 : Except Unit Int)
          (Bounded.wrapper 2 false (Except.ok 4 : Except Unit Int) (boundedInit Int)
            [pyInt 1]).2 [pyInt 2]).2.nodes i).key)).Perm
      ((Bounded.wrapper 2 false (Except.ok 5 : Except Unit Int)
          (Bounded.wrapper 2 false (Except.ok 4 : Except Unit Int) (boundedInit Int)
            [pyInt 1]).2 [pyInt 2]).2.cache.map (fun p => some p.1)) ∧
     (walkIds
        (Bounded.wrapper 2 false (Except.ok 5 : Except Unit Int)
          (Bounded.wrapper 2 false (Except.ok 4 : Except Unit Int) (boundedInit Int)
            [pyInt 1]).2 [pyInt 2]).2
        ((Bounded.wrapper 2 false (Except.ok 5 : Except Unit Int)
          (Bounded.wrapper 2 false (Except.ok 4 : Except Unit Int) (boundedInit Int)
            [pyInt 1]).2 [pyInt 2]).2.cache.length + 1)
        (Bounded.wrapper 2 false (Except.ok 5 : Except Unit Int)
          (Bounded.wrapper 2 false (Except.ok 4 : Except Unit Int) (boundedInit Int)
            [pyInt 1]).2 [pyInt 2]).2.rootId).length =
      (Bounded.wrapper 2 false (Except.ok 5 : Except Unit Int)
          (Bounded.wrapper 2 false (Except.ok 4 : Except Unit Int) (boundedInit Int)
            [pyInt 1]).2 [pyInt 2]).2.cache.length) := by
  have hreach : Bounded.Reachable Unit Int 2 false
      (Bounded.wrapper 2 false (Except.ok 5 : Except Unit Int)
        (Bounded.wrapper 2 false (Except.ok 4 : Except Unit Int) (boundedInit Int)
          [pyInt 1]).2 [pyInt 2]).2 :=
    Bounded.Reachable.callStep [pyInt 2] (Except.ok 5)
      (Bounded.Reachable.callStep [pyInt 1] (Except.ok 4) Bounded.Reachable.start)
  exact ⟨by decide, hreach, claim_C4 Unit Int 2 false _ (by decide) hreach⟩

/-- Claim C2: with any positive capacity, the number of stored entries
never exceeds the capacity in any reachable state; and inserting N+1
pairwise distinct fresh keys in order into a fresh cache fills it after N
insertions and then evicts exactly the first (least recently used) key
when the last one is inserted. -/
theorem claim_C2 (ε α : Type) (N : Nat) (typed : Bool) (hN : 0 < N) :
    (∀ s : BoundedSt α, Bounded.Reachable ε α N typed s → s.cache.length ≤ N) ∧
    (∀ (calls : List (List PyVal × Except ε α)) (aN1 : List PyVal) (r : α),
      calls.length = N →
      (∀ c ∈ calls, ∃ rc : α, c.2 = Except.ok rc) →
      ((calls.map (fun c => make_key c.1 typed)) ++ [make_key aN1 typed]).Pairwise
        (fun a b => keyEq a b = false) →
      ((Bounded.run N typed calls (boundedInit α)).2.full = true ∧
       (Bounded.run N typed calls (boundedInit α)).2.cache.length = N) ∧
      (((Bounded.run N typed (calls ++ [(aN1, Except.ok r)]) (boundedInit α)).2.cache.map
          Prod.fst).Perm
        ((calls.map (fun c => make_key c.1 typed)).drop 1 ++ [make_key aN1 typed]) ∧
       dictGet (Bounded.run N typed (calls ++ [(aN1, Except.ok r)]) (boundedInit α)).2.cache
         ((calls.map (fun c => make_key c.1 typed)).headD (make_key aN1 typed)) = none)) := by
  constructor
  · intro s hr
    obtain ⟨es, hInv⟩ := reachable_inv hN hr
    have h : s.cache.length = es.length := by
      rw [hInv.cache_perm.length_eq]
      simp [entryPairs]
    rw [h]
    exact hInv.size_le
  · intro calls aN1 r hlen hok hdist
    have hdist0 : (calls.map (fun c => make_key c.1 typed)).Pairwise
        (fun a b => keyEq a b = false) := (List.pairwise_append.mp hdist).1
    have hcross : ∀ a ∈ calls.map (fun c => make_key c.1 typed),
        keyEq a (make_key aN1 typed) = false := by
      intro a ha
      exact (List.pairwise_append.mp hdist).2.2 a ha _ (List.mem_singleton_self _)
    obtain ⟨esN, hInvN, hkeys⟩ := fresh_run calls (boundedInit α) [] (inv_start hN)
      hok hdist0 (by intro k _ e he; simp at he) (by simp [hlen])
    have hkeys0 : esN.map Entry.key = calls.map (fun c => make_key c.1 typed) := by
      simpa using hkeys
    have hlenN : esN.length = N := by
      have h := congrArg List.length hkeys0
      simp only [List.length_map] at h
      rw [h, hlen]
    have hsizeN : (Bounded.run N typed calls (boundedInit α)).2.cache.length = N := by
      rw [hInvN.cache_perm.length_eq]
      simp [entryPairs, hlenN]
    have hfullN : (Bounded.run N typed calls (boundedInit α)).2.full = true := by
      rw [hInvN.full_ok, hlenN]
      simp
    refine ⟨⟨hfullN, hsizeN⟩, ?_⟩
    -- The final insertion.
    have hfreshN : ∀ e ∈ esN, keyEq e.key (make_key aN1 typed) = false := by
      intro e hmem
      refine hcross e.key ?_
      rw [← hkeys0]
      exact List.mem_map_of_mem _ hmem
    have hgetN : dictGet (Bounded.run N typed calls (boundedInit α)).2.cache
        (make_key aN1 typed) = none := inv_dictGet_none hInvN hfreshN
    have hmiss := inv_lookup_miss hInvN hgetN
    cases hEs : esN with
    | nil =>
        exfalso
        rw [hEs] at hlenN
        simp at hlenN
        omega
    | cons e0 restE =>
        rw [hEs] at hInvN hkeys0 hfreshN
        have hmiss := inv_lookup_miss hInvN hgetN
        have hfull1 : ({ (Bounded.run N typed calls (boundedInit α)).2 with
            misses := (Bounded.run N typed calls (boundedInit α)).2.misses + 1 }
              : BoundedSt α).full = true := hfullN
        have hget1 : dictGet ({ (Bounded.run N typed calls (boundedInit α)).2 with
            misses := (Bounded.run N typed calls (boundedInit α)).2.misses + 1 }
              : BoundedSt α).cache (make_key aN1 typed) = none := hgetN
        have hevict := @inv_store_evict_exact α N
          ({ (Bounded.run N typed calls (boundedInit α)).2 with
             misses := (Bounded.run N typed calls (boundedInit α)).2.misses + 1 })
          e0 restE (make_key aN1 typed) r hmiss.2 hget1 hfull1
        have hfin : (Bounded.run N typed (calls ++ [(aN1, Except.ok r)])
            (boundedInit α)).2 =
            Bounded.wrapperStore N
              ({ (Bounded.run N typed calls (boundedInit α)).2 with
                 misses := (Bounded.run N typed calls (boundedInit α)).2.misses + 1 })
              (make_key aN1 typed) r := by
          rw [run_append]
          show (Bounded.wrapper N typed (Except.ok r : Except ε α)
            (Bounded.run N typed calls (boundedInit α)).2 aN1).2 = _
          simp only [Bounded.wrapper, hmiss.1, Bounded.wrapperResume]
        rw [hfin]
        have hInvF := hevict
        constructor
        · -- The final keys are the old ones minus the first, plus the new one.
          have h1 := hInvF.cache_perm.map (fun p : CacheKey × Nat => p.1)
          have h2 : (entryPairs (restE ++
              [({ id := ({ (Bounded.run N typed calls (boundedInit α)).2 with
                   misses := (Bounded.run N typed calls (boundedInit α)).2.misses + 1 }
                     : BoundedSt α).rootId,
                  key := make_key aN1 typed, result := r } : Entry α)])).map
              (fun p : CacheKey × Nat => p.1) =
              restE.map Entry.key ++ [make_key aN1 typed] := by
            simp [entryPairs]
          rw [h2] at h1
          have h3 : restE.map Entry.key =
              (calls.map (fun c => make_key c.1 typed)).drop 1 := by
            rw [← hkeys0]
            simp
          rw [← h3]
          exact h1
        · -- The first key is gone.
          have hhead : (calls.map (fun c => make_key c.1 typed)).headD
              (make_key aN1 typed) = e0.key := by
            rw [← hkeys0]
            simp
          rw [hhead]
          refine inv_dictGet_none hInvF ?_
          intro e' hmem
          rcases List.mem_append.mp hmem with h | h
          · exact keyEq_false_symm ((List.pairwise_cons.mp hInvN.keys_distinct).1 e' h)
          · rcases List.mem_singleton.mp h with rfl
            show keyEq (make_key aN1 typed) e0.key = false
            refine keyEq_false_symm ?_
            refine hcross e0.key ?_
            rw [← hkeys0]
            exact List.mem_map_of_mem _ (List.mem_cons_self _ _)

/-- Witness for claim C2 at capacity 2 with keys 1, 2, 3: the first two
insertions fill the cache and the third evicts exactly key 1. -/
theorem claim_C2_witness :
    (0 < 2 ∧
     ([([pyInt 1], (Except.ok 10 : Except Unit Int)), ([pyInt 2], Except.ok 20)].length = 2) ∧
     (∀ c ∈ [([pyInt 1], (Except.ok 10 : Except Unit Int)), ([pyInt 2], Except.ok 20)],
        ∃ rc : Int, c.2 = Except.ok rc) ∧
     (([([pyInt 1], (Except.ok 10 : Except Unit Int)),
        ([pyInt 2], Except.ok 20)].map (fun c => make_key c.1 false)) ++
        [make_key [pyInt 3] false]).Pairwise (fun a b => keyEq a b = false)) ∧
    (((Bounded.run 2 false [([pyInt 1], (Except.ok 10 : Except Unit Int)),
        ([pyInt 2], Except.ok 20)] (boundedInit Int)).2.full = true ∧
      (Bounded.run 2 false [([pyInt 1], (Except.ok 10 : Except Unit Int)),
        ([pyInt 2], Except.ok 20)] (boundedInit Int)).2.cache.length = 2) ∧
     (((Bounded.run 2 false ([([pyInt 1], (Except.ok 10 : Except Unit Int)),
          ([pyInt 2], Except.ok 20)] ++ [([pyInt 3], Except.ok 30)])
          (boundedInit Int)).2.cache.map Prod.fst).Perm
        (([([pyInt 1], (Except.ok 10 : Except Unit Int)),
           ([pyInt 2], Except.ok 20)].map (fun c => make_key c.1 false)).drop 1 ++
          [make_key [pyInt 3] false]) ∧
      dictGet (Bounded.run 2 false ([([pyInt 1], (Except.ok 10 : Except Unit Int)),
          ([pyInt 2], Except.ok 20)] ++ [([pyInt 3], Except.ok 30)])
          (boundedInit Int)).2.cache
        (([([pyInt 1], (Except.ok 10 : Except Unit Int)),
           ([pyInt 2], Except.ok 20)].map (fun c => make_key c.1 false)).headD
          (make_key [pyInt 3] false)) = none)) := by
  refine ⟨⟨by decide, by decide, ?_, by decide⟩, ?_⟩
  · intro c hc
    rcases List.mem_cons.mp hc with h | h
    · exact ⟨10, by rw [h]⟩
    · rcases List.mem_singleton.mp h with rfl
      exact ⟨20, rfl⟩
  · exact (claim_C2 Unit Int 2 false (by decide)).2
      [([pyInt 1], Except.ok 10), ([pyInt 2], Except.ok 20)] [pyInt 3] 30
      (by decide)
      (by
        intro c hc
        rcases List.mem_cons.mp hc with h | h
        · exact ⟨10, by rw [h]⟩
        · rcases List.mem_singleton.mp h with rfl
          exact ⟨20, rfl⟩)
      (by decide)

/-- Lookup distributes over append when the prefix misses. -/
theorem dictGet_append_right {β : Type} {l l' : List (CacheKey × β)} {k : CacheKey}
    (h : dictGet l k = none) : dictGet (l ++ l') k = dictGet l' k := by
  induction l with
  | nil => simp [dictGet]
  | cons p rest ih =>
      obtain ⟨k0, v0⟩ := p
      by_cases hk : keyEq k0 k = true
      · simp [dictGet, hk] at h
      · have hf : keyEq k0 k = false := by
          cases hval : keyEq k0 k
          · rfl
          · exact absurd hval hk
        simp [dictGet, hf] at h ⊢
        exact ih h

/-- One unbounded-mode call preserves every stored entry. -/
theorem ub_step_persist {ε α : Type} (typed : Bool) (comp : Except ε α)
    (s : SimpleSt α) (args : List PyVal) {k : CacheKey} {r : α}
    (h : dictGet s.cache k = some r) :
    dictGet ((Unbounded.wrapper typed comp s args).2).cache k = some r := by
  cases hget : dictGet s.cache (make_key args typed) with
  | some v =>
      simp only [Unbounded.wrapper, hget]
      exact h
  | none =>
      cases comp with
      | error e =>
          simp only [Unbounded.wrapper, hget]
          exact h
      | ok v =>
          simp only [Unbounded.wrapper, hget]
          show dictGet (dictSet s.cache (make_key args typed) v) k = some r
          rw [dictSet_of_absent (dictGet_eq_none_iff.mp hget) v]
          exact dictGet_append_left h

/-- A whole sequence of unbounded-mode calls preserves every stored
entry. -/
theorem ub_run_persist {ε α : Type} (typed : Bool)
    (calls : List (List PyVal × Except ε α)) (s : SimpleSt α) {k : CacheKey} {r : α}
    (h : dictGet s.cache k = some r) :
    dictGet ((Unbounded.run typed calls s).2).cache k = some r := by
  induction calls generalizing s with
  | nil => exact h
  | cons c rest ih =>
      obtain ⟨args, comp⟩ := c
      exact ih _ (ub_step_persist typed comp s args h)

/-- Claim C5: with unbounded capacity, a first call with a fresh key
stores its own computed result and grows the size by exactly one; the
stored entry survives any sequence of further calls; and any call whose
arguments map to a stored key is answered as a hit with the stored
result, without invoking the computation and without growing the size. -/
theorem claim_C5 (ε α : Type) (typed : Bool) :
    (∀ (s : SimpleSt α) (args : List PyVal) (r : α),
        dictGet s.cache (make_key args typed) = none →
        dictGet ((Unbounded.wrapper typed (Except.ok r : Except ε α) s args).2).cache
          (make_key args typed) = some r ∧
        ((Unbounded.wrapper typed (Except.ok r : Except ε α) s args).2).cache.length =
          s.cache.length + 1) ∧
    (∀ (s : SimpleSt α) (k : CacheKey) (r : α)
        (calls : List (List PyVal × Except ε α)),
        dictGet s.cache k = some r →
        dictGet ((Unbounded.run typed calls s).2).cache k = some r) ∧
    (∀ (s : SimpleSt α) (args : List PyVal) (r : α) (comp : Except ε α),
        dictGet s.cache (make_key args typed) = some r →
        Unbounded.wrapper typed comp s args =
          (SimpleOutcome.hit r, { s with hits := s.hits + 1 })) := by
  refine ⟨?_, ?_, ?_⟩
  · intro s args r hget
    constructor
    · simp only [Unbounded.wrapper, hget]
      show dictGet (dictSet s.cache (make_key args typed) r) (make_key args typed) = some r
      rw [dictSet_of_absent (dictGet_eq_none_iff.mp hget) r]
      rw [dictGet_append_right hget]
      simp [dictGet, keyEq_refl]
    · simp only [Unbounded.wrapper, hget]
      show (dictSet s.cache (make_key args typed) r).length = s.cache.length + 1
      rw [dictSet_of_absent (dictGet_eq_none_iff.mp hget) r]
      simp
  · intro s k r calls h
    exact ub_run_persist typed calls s h
  · intro s args r comp hget
    simp only [Unbounded.wrapper, hget]

/-- Witness for claim C5 at concrete inputs: storing key 1 with result 7
in a fresh cache, surviving an interleaved call on key 2, and hitting on
key 1 afterwards. -/
theorem claim_C5_witness :
    (dictGet (simpleInit Int).cache (make_key [pyInt 1] false) = none ∧
     dictGet ((Unbounded.wrapper false (Except.ok 7 : Except Unit Int)
       (simpleInit Int) [pyInt 1]).2).cache (make_key [pyInt 1] false) = some 7 ∧
     ((Unbounded.wrapper false (Except.ok 7 : Except Unit Int)
       (simpleInit Int) [pyInt 1]).2).cache.length = (simpleInit Int).cache.length + 1) ∧
    (dictGet ((Unbounded.run false [([pyInt 2], (Except.ok 8 : Except Unit Int))]
       ((Unbounded.wrapper false (Except.ok 7 : Except Unit Int)
         (simpleInit Int) [pyInt 1]).2)).2).cache (make_key [pyInt 1] false) = some 7) ∧
    (Unbounded.wrapper false (Except.error () : Except Unit Int)
       ((Unbounded.wrapper false (Except.ok 7 : Except Unit Int)
         (simpleInit Int) [pyInt 1]).2) [pyInt 1] =
      (SimpleOutcome.hit 7,
       { (Unbounded.wrapper false (Except.ok 7 : Except Unit Int)
           (simpleInit Int) [pyInt 1]).2 with
         hits := ((Unbounded.wrapper false (Except.ok 7 : Except Unit Int)
           (simpleInit Int) [pyInt 1]).2).hits + 1 })) := by
  refine ⟨⟨by decide, ?_⟩, ?_, ?_⟩
  · have h := (claim_C5 Unit Int false).1 (simpleInit Int) [pyInt 1] 7 (by decide)
    exact h
  · exact (claim_C5 Unit Int false).2.1 _ (make_key [pyInt 1] false) 7
      [([pyInt 2], Except.ok 8)] (by decide)
  · exact (claim_C5 Unit Int false).2.2 _ [pyInt 1] 7 (Except.error ()) (by decide)

/-- The store step never decreases the dictionary size and never touches
the counters. -/
theorem bounded_store_mono {α : Type} (maxsize : Nat) (s : BoundedSt α)
    (key : CacheKey) (result : α) (hget : dictGet s.cache key = none) :
    s.cache.length ≤ (Bounded.wrapperStore maxsize s key result).cache.length ∧
    (Bounded.wrapperStore maxsize s key result).hits = s.hits ∧
    (Bounded.wrapperStore maxsize s key result).misses = s.misses := by
  simp only [Bounded.wrapperStore, hget, Option.isSome_none, Bool.false_eq_true, if_false]
  by_cases hfull : s.full = true
  · rw [if_pos hfull]
    refine ⟨?_, rfl, rfl⟩
    dsimp only
    split
    · next k0 heq =>
        have hsub : ∀ p ∈ dictDel s.cache k0, keyEq p.1 key = false :=
          fun p hp => (dictGet_eq_none_iff.mp hget) p (mem_dictDel hp)
        rw [dictSet_of_absent hsub]
        have h1 := dictDel_length_ge s.cache k0
        simp only [List.length_append, List.length_singleton]
        omega
    · next heq =>
        rw [dictSet_of_absent (dictGet_eq_none_iff.mp hget)]
        simp
  · rw [if_neg (by simp [(by cases h : s.full; rfl; exact absurd h hfull : s.full = false)])]
    refine ⟨?_, rfl, rfl⟩
    dsimp only
    rw [dictSet_of_absent (dictGet_eq_none_iff.mp hget)]
    simp

/-- Claim C9: between resets, no single call in any mode decreases the
hit count, the miss count, the configured capacity, or the current size:
each cache-info component after one call is at least its value before. -/
theorem claim_C9 (ε α : Type) :
    (∀ (s : SimpleSt α) (comp : Except ε α),
        s.hits ≤ (MaxsizeZero.wrapper comp s).2.hits ∧
        s.misses ≤ (MaxsizeZero.wrapper comp s).2.misses ∧
        s.cache.length ≤ (MaxsizeZero.wrapper comp s).2.cache.length ∧
        (Simple.cache_info (some 0) (MaxsizeZero.wrapper comp s).2).maxsize =
          (Simple.cache_info (some 0) s).maxsize) ∧
    (∀ (typed : Bool) (s : SimpleSt α) (args : List PyVal) (comp : Except ε α),
        s.hits ≤ (Unbounded.wrapper typed comp s args).2.hits ∧
        s.misses ≤ (Unbounded.wrapper typed comp s args).2.misses ∧
        s.cache.length ≤ (Unbounded.wrapper typed comp s args).2.cache.length ∧
        (Simple.cache_info none (Unbounded.wrapper typed comp s args).2).maxsize =
          (Simple.cache_info none s).maxsize) ∧
    (∀ (maxsize : Nat) (typed : Bool) (s : BoundedSt α) (args : List PyVal)
        (comp : Except ε α),
        s.hits ≤ (Bounded.wrapper maxsize typed comp s args).2.hits ∧
        s.misses ≤ (Bounded.wrapper maxsize typed comp s args).2.misses ∧
        s.cache.length ≤ (Bounded.wrapper maxsize typed comp s args).2.cache.length ∧
        (Bounded.cache_info maxsize (Bounded.wrapper maxsize typed comp s args).2).maxsize =
          (Bounded.cache_info maxsize s).maxsize) := by
  refine ⟨?_, ?_, ?_⟩
  · intro s comp
    cases comp with
    | ok r => exact ⟨le_refl _, Nat.le_succ _, le_refl _, rfl⟩
    | error e => exact ⟨le_refl _, Nat.le_succ _, le_refl _, rfl⟩
  · intro typed s args comp
    cases hget : dictGet s.cache (make_key args typed) with
    | some v =>
        simp only [Unbounded.wrapper, hget]
        exact ⟨Nat.le_succ _, le_refl _, le_refl _, rfl⟩
    | none =>
        cases comp with
        | error e =>
            simp only [Unbounded.wrapper, hget]
            exact ⟨le_refl _, Nat.le_succ _, le_refl _, rfl⟩
        | ok r =>
            simp only [Unbounded.wrapper, hget]
            refine ⟨le_refl _, Nat.le_succ _, ?_, rfl⟩
            show s.cache.length ≤ (dictSet s.cache (make_key args typed) r).length
            exact dictSet_length_ge _ _ _
  · intro maxsize typed s args comp
    cases hget : dictGet s.cache (make_key args typed) with
    | some linkId =>
        simp only [Bounded.wrapper, Bounded.wrapperLookup, hget]
        exact ⟨Nat.le_succ _, le_refl _, le_refl _, rfl⟩
    | none =>
        simp only [Bounded.wrapper, Bounded.wrapperLookup, hget]
        cases comp with
        | error e =>
            simp only [Bounded.wrapperResume]
            exact ⟨le_refl _, Nat.le_succ _, le_refl _, rfl⟩
        | ok r =>
            simp only [Bounded.wrapperResume]
            have h := bounded_store_mono maxsize ({ s with misses := s.misses + 1 })
              (make_key args typed) r hget
            refine ⟨?_, ?_, ?_, rfl⟩
            · rw [h.2.1]
            · rw [h.2.2]
              exact Nat.le_succ _
            · exact h.1
end AlruCache
